import Mathlib

/-!
# transithfx-tweet: a shallow embedding of `cmd/transithfx-tweet/main.go`

The development follows the Go source function by function:

* `altText` (main.go 113-134) with the float64 percentage computation and the
  English `message.Printer` number formatting it relies on;
* `fetch` (main.go 142-205): header map, row loop with `strconv.Atoi`,
  aggregation map, `strings.Fields`, `time.Parse`, `sort.Slice`;
* `isAlreadyDone` / `markDone` (main.go 375-389) over an explicit marker file;
* `uploadMedia` and the publishing tail of `main` (main.go 77-110, 299-373)
  as functions that return the trace of HTTP requests they issue.

Go `int` is the 64-bit two's-complement integer; arithmetic on it wraps.
-/

namespace Transithfx

/-! ## Data model -/

/-- Calendar date carried by a Go `time.Time` (the fields its `Format` prints).
`fetch` only ever builds midnight-UTC values, for which the calendar date
determines the instant. -/
structure Date where
  year : Int
  month : Nat
  day : Nat
deriving DecidableEq, Repr

/-- The `week` struct of main.go 136-140 (field `end` is spelled `end_`). -/
structure week where
  start : Date
  end_ : Date
  count : Int
deriving DecidableEq, Repr

/-! ## Go `int` -/

/-- Smallest value of Go `int` on a 64-bit platform. -/
def minInt64 : Int := -(2 ^ 63)

/-- Largest value of Go `int` on a 64-bit platform. -/
def maxInt64 : Int := 2 ^ 63 - 1

/-- Whether an integer is a value of Go `int`. -/
def inInt64 (x : Int) : Prop := minInt64 ≤ x ∧ x ≤ maxInt64

instance (x : Int) : Decidable (inInt64 x) := by
  unfold inInt64; exact inferInstance

/-- Two's-complement wrap-around of an exact result into Go `int`. -/
def wrapInt (x : Int) : Int := (x + 2 ^ 63) % 2 ^ 64 - 2 ^ 63

/-! ## float64 arithmetic (IEEE 754 binary64, round to nearest, ties to even)

Only the operations of `altText` are needed: conversion from `int`, division,
multiplication and truncating conversion back to `int`.  A finite value is
kept as an exact fraction; the exponent range is not bounded, which is exact
here because every operand comes from a 64-bit integer. -/

/-- A finite float64 value `(-1)^neg * num / den`. -/
structure Fin64 where
  neg : Bool
  num : Nat
  den : Nat
deriving DecidableEq, Repr

/-- A float64: `none` stands for the non-finite values (NaN, +Inf, -Inf). -/
abbrev F64 := Option Fin64

/-- The fraction `n / d` divided by `2 ^ e`, as a numerator and denominator. -/
def scaleBy (n d : Nat) (e : Int) : Nat × Nat :=
  if 0 ≤ e then (n, d * 2 ^ e.toNat) else (n * 2 ^ (-e).toNat, d)

/-- Nearest natural number to `n / d`, a tie going to the even neighbour. -/
def roundHalfEven (n d : Nat) : Nat :=
  let q := n / d
  let r := n % d
  if 2 * r < d then q
  else if d < 2 * r then q + 1
  else if q % 2 = 0 then q else q + 1

/-- Halve `n` until it is below 2, at most `fuel` times, counting the steps. -/
def log2Aux : Nat → Nat → Nat
  | 0, _ => 0
  | fuel + 1, n => if n < 2 then 0 else log2Aux fuel (n / 2) + 1

/-- The binary logarithm rounded down (0 at 0). -/
def log2 (n : Nat) : Nat := log2Aux n n

/-- The binary exponent `e` with `2^52 ≤ (n/d) / 2^e < 2^53`, for `n, d > 0`. -/
def f64Exponent (n d : Nat) : Int :=
  let e : Int := (log2 n : Int) - (log2 d : Int) - 52
  let s := scaleBy n d e
  if s.1 < 2 ^ 52 * s.2 then e - 1 else e

/-- The float64 nearest to `n / d` (53-bit significand), as a fraction. -/
def roundF64 (n d : Nat) : Nat × Nat :=
  if n = 0 then (0, 1)
  else
    let e := f64Exponent n d
    let s := scaleBy n d e
    let m := roundHalfEven s.1 s.2
    if 0 ≤ e then (m * 2 ^ e.toNat, 1) else (m, 2 ^ (-e).toNat)

/-- Go `float64(x)` for an `int` x. -/
def f64OfInt (x : Int) : F64 :=
  let r := roundF64 x.natAbs 1
  some ⟨decide (x < 0), r.1, r.2⟩

/-- Go `a / b` on float64: a zero divisor gives NaN or an infinity. -/
def f64Div (a b : F64) : F64 :=
  match a, b with
  | some x, some y =>
    if y.num = 0 then none
    else
      let r := roundF64 (x.num * y.den) (x.den * y.num)
      some ⟨xor x.neg y.neg, r.1, r.2⟩
  | _, _ => none

/-- Go `a * b` on float64 (a non-finite operand stays non-finite; the finite
operand next to it is never zero in `altText`, where it is `100.0`). -/
def f64Mul (a b : F64) : F64 :=
  match a, b with
  | some x, some y =>
    let r := roundF64 (x.num * y.num) (x.den * y.den)
    some ⟨xor x.neg y.neg, r.1, r.2⟩
  | _, _ => none

/-- Go `int(f)` for a float64 f: truncation toward zero. Go leaves the result
implementation-defined when f is NaN, infinite or outside the range of `int`;
the value here is the one amd64 produces (CVTTSD2SQ, the integer indefinite
`-2^63`). -/
def f64ToInt (a : F64) : Int :=
  match a with
  | none => minInt64
  | some v =>
    let t : Int := ((v.num / v.den : Nat) : Int)
    let x : Int := if v.neg then -t else t
    if inInt64 x then x else minInt64

/-- The percentage expression of main.go 122 and 125:
`int(float64(d) / float64(p) * 100.0)`. -/
def pctOf (d p : Int) : Int :=
  f64ToInt (f64Mul (f64Div (f64OfInt d) (f64OfInt p)) (f64OfInt 100))

/-! ## `message.Printer` number formatting -/

/-- Decimal digits of a natural number, most significant first. -/
def decimal (n : Nat) : List Char := Nat.toDigits 10 n

/-- Walk the digits from the least significant one, `k` digits after the last
separator, and put a comma before every fourth digit. -/
def groupRev : Nat → List Char → List Char
  | _, [] => []
  | k, c :: rest =>
    if k = 3 then ',' :: c :: groupRev 1 rest else c :: groupRev (k + 1) rest

/-- Digits with a comma between groups of three (CLDR pattern `#,##0`). -/
def groupThousands (ds : List Char) : List Char :=
  (groupRev 0 ds.reverse).reverse

/-- A `message.Printer`: how `Sprintf` renders a `%d` argument. -/
structure Printer where
  fmtInt : Int → String

/-- The printer `message.NewPrinter(message.MatchLanguage("en"))`: decimal
digits grouped by thousands with commas, a leading `-` for negatives. -/
def english : Printer where
  fmtInt := fun x =>
    let body := String.mk (groupThousands (decimal x.natAbs))
    if x < 0 then "-" ++ body else body

/-! ## altText (main.go 113-134) -/

/-- The leading sentence: `Sprintf("Bar chart ... last %d weeks.", len(data))`. -/
def leadText (n : Nat) (p : Printer) : String :=
  "Bar chart of passengers by week for last " ++ p.fmtInt n ++ " weeks."

/-- The `altText` function of main.go 113-134. -/
def altText (data : List week) (p : Printer) : String :=
  let out := leadText data.length p
  if data.length > 1 then
    match data[data.length - 1]?, data[data.length - 2]? with
    | some curWeek, some prevWeek =>
      let moreOrFewer := if curWeek.count > prevWeek.count then "more" else "fewer"
      let pct :=
        if curWeek.count > prevWeek.count then
          pctOf (wrapInt (curWeek.count - prevWeek.count)) prevWeek.count
        else
          pctOf (wrapInt (prevWeek.count - curWeek.count)) prevWeek.count
      if pct > 0 then
        out ++ (" The most recent count of " ++ p.fmtInt curWeek.count ++ " is "
          ++ p.fmtInt pct ++ "% " ++ moreOrFewer ++ " than the previous week.")
      else
        out ++ (" The most recent count of " ++ p.fmtInt curWeek.count
          ++ " is about the same as the previous week.")
    | _, _ => out
  else out

/-! ## Library functions used by `fetch` -/

/-- Value of an ASCII decimal digit. -/
def digitVal (c : Char) : Option Nat :=
  if 48 ≤ c.toNat ∧ c.toNat ≤ 57 then some (c.toNat - 48) else none

/-- Value of a string of decimal digits read after the value `acc`; `none` if
some character is not a digit. -/
def digitsVal : List Char → Nat → Option Nat
  | [], acc => some acc
  | c :: cs, acc =>
    match digitVal c with
    | none => none
    | some d => digitsVal cs (acc * 10 + d)

/-- Go `strconv.Atoi`: an optional sign, then one or more decimal digits, the
value within the range of `int`; `none` is the error result. -/
def atoi (s : String) : Option Int :=
  let body : List Char :=
    match s.data with
    | '-' :: ds => ds
    | '+' :: ds => ds
    | ds => ds
  let negative : Bool :=
    match s.data with
    | '-' :: _ => true
    | _ => false
  if body = [] then none
  else
    match digitsVal body 0 with
    | none => none
    | some n =>
      let x : Int := if negative then -(n : Int) else (n : Int)
      if inInt64 x then some x else none

/-- Go `unicode.IsSpace`. -/
def isSpace (c : Char) : Bool :=
  let n := c.toNat
  (9 ≤ n && n ≤ 13) || n = 32 || n = 0x85 || n = 0xA0 || n = 0x1680
    || (0x2000 ≤ n && n ≤ 0x200A) || n = 0x2028 || n = 0x2029 || n = 0x202F
    || n = 0x205F || n = 0x3000

/-- Scan for `fieldsOf`: `cur` is the field being read, reversed. -/
def fieldsAux : List Char → List Char → List String
  | [], cur => if cur = [] then [] else [String.mk cur.reverse]
  | c :: cs, cur =>
    if isSpace c then
      if cur = [] then fieldsAux cs [] else String.mk cur.reverse :: fieldsAux cs []
    else fieldsAux cs (c :: cur)

/-- Go `strings.Fields`: the maximal runs of non-space characters. -/
def fieldsOf (s : String) : List String := fieldsAux s.data []

/-- Leap years of the proleptic Gregorian calendar (Go `isLeap`). -/
def isLeap (year : Nat) : Bool :=
  year % 4 = 0 && (year % 100 != 0 || year % 400 = 0)

/-- Number of days of a month (Go `daysIn`). -/
def daysIn (month year : Nat) : Nat :=
  if month = 2 then (if isLeap year then 29 else 28)
  else if month = 4 ∨ month = 6 ∨ month = 9 ∨ month = 11 then 30
  else 31

/-- Go `time.Parse("2006.01.02", s)`: four digits, a dot, two digits, a dot,
two digits and nothing more; the month within 1..12 and the day within the
month. `none` is the error result. -/
def parseDate (s : String) : Option Date :=
  match s.data with
  | [y1, y2, y3, y4, '.', m1, m2, '.', d1, d2] =>
    match digitsVal [y1, y2, y3, y4] 0, digitsVal [m1, m2] 0, digitsVal [d1, d2] 0 with
    | some y, some m, some d =>
      if m = 0 ∨ 12 < m then none
      else if d < 1 ∨ daysIn m y < d then none
      else some ⟨(y : Int), m, d⟩
    | _, _, _ => none
  | _ => none

/-- Go `Time.Before` on the midnight-UTC values `fetch` builds: the earlier
calendar date. -/
def Date.before (a b : Date) : Bool :=
  decide (a.year < b.year) ||
    (decide (a.year = b.year) &&
      (decide (a.month < b.month) || (decide (a.month = b.month) && decide (a.day < b.day))))

/-- Go `appendInt(b, x, width)` of package time: a minus sign for a negative
value, then the digits left-padded with zeros to `width`. -/
def appendInt (x : Int) (width : Nat) : String :=
  let ds := decimal x.natAbs
  let body := String.mk (List.replicate (width - ds.length) '0' ++ ds)
  if x < 0 then "-" ++ body else body

/-- Go `t.Format("2006-01-02")`. -/
def formatDate (d : Date) : String :=
  appendInt d.year 4 ++ "-" ++ appendInt d.month 2 ++ "-" ++ appendInt d.day 2

/-! ## fetch (main.go 142-205) -/

/-- What `http.Get` hands back on success: the status code and the body, the
body as the records `csv.Reader` tokenises it into. -/
structure Response where
  statusCode : Nat
  records : List (List String)
deriving DecidableEq, Repr

/-- The errors `fetch` returns. -/
inductive FetchError where
  | transport (msg : String)
  | badStatus (code : Nat)
  | csvEOF
  | csvFieldCount
  | invalidRidership (rt : String)
  | invalidWeekRange (wr : String)
  | invalidWeekStart (s : String)
  | invalidWeekEnd (s : String)
deriving DecidableEq, Repr

deriving instance DecidableEq for Except

/-- The map `hdr` after `for i, h := range hdrr { hdr[h] = i }`, read at
`name`: the last index holding `name`, and Go's zero value 0 when the key is
absent. `i` is the index of the head, `acc` the value so far. -/
def hdrIndexAux : List String → String → Nat → Nat → Nat
  | [], _, _, acc => acc
  | h :: hs, name, i, acc => hdrIndexAux hs name (i + 1) (if h = name then i else acc)

/-- `hdr[name]` for the header record `hdrr`. -/
def hdrIndex (hdrr : List String) (name : String) : Nat :=
  hdrIndexAux hdrr name 0 0

/-- The statement `weeks[wr] += c` on the map `weeks`, kept as an association
list with one entry per key; an absent key reads as 0. -/
def mapAdd : List (String × Int) → String → Int → List (String × Int)
  | [], wr, c => [(wr, wrapInt (0 + c))]
  | (k, v) :: rest, wr, c =>
    if k = wr then (k, wrapInt (v + c)) :: rest else (k, v) :: mapAdd rest wr c

/-- The row loop of main.go 164-182. `nf` is the field count `csv.Reader`
fixes from the header record (a record of another length is its
`ErrFieldCount`); `wi` and `ri` are `hdr["Week_Range"]` and
`hdr["Ridership_Total"]`, in range for every record the reader returns. -/
def readRows (nf wi ri : Nat) :
    List (List String) → List (String × Int) → Except FetchError (List (String × Int))
  | [], weeks => .ok weeks
  | rec :: rest, weeks =>
    if rec.length ≠ nf then .error .csvFieldCount
    else
      let wr := rec.getD wi ""
      let rt := rec.getD ri ""
      match atoi rt with
      | none => .error (.invalidRidership rt)
      | some c => readRows nf wi ri rest (mapAdd weeks wr c)

/-- The body of the loop of main.go 185-201 for one map entry. -/
def parseWeek (wr : String) (c : Int) : Except FetchError week :=
  let wrf := fieldsOf wr
  if wrf.length ≠ 3 then .error (.invalidWeekRange wr)
  else
    match parseDate (wrf.getD 0 "") with
    | none => .error (.invalidWeekStart (wrf.getD 0 ""))
    | some sdt =>
      match parseDate (wrf.getD 2 "") with
      | none => .error (.invalidWeekEnd (wrf.getD 2 ""))
      | some edt => .ok ⟨sdt, edt, c⟩

/-- The loop of main.go 185-201 over the map entries in the order given. -/
def buildWeeks : List (String × Int) → Except FetchError (List week)
  | [] => .ok []
  | (wr, c) :: rest =>
    match parseWeek wr c with
    | .error e => .error e
    | .ok w =>
      match buildWeeks rest with
      | .error e => .error e
      | .ok ws => .ok (w :: ws)

/-- The order `sort.Slice` establishes: `a` may stand before `b` when `b` does
not start before `a`. -/
def startLE (a b : week) : Prop := b.start.before a.start = false

instance : DecidableRel startLE := fun a b => by
  unfold startLE; exact inferInstance

/-- The call `sort.Slice(out, ...)` of main.go 202. -/
def sortByStart (out : List week) : List week := List.insertionSort startLE out

/-- The `fetch` function of main.go 142-205. `get` is the result of `http.Get`.
`iter` is the order in which `range weeks` visits the map, which Go leaves
unspecified: every result about `fetch` is stated for an arbitrary `iter`
that returns a permutation of the entries. `sort.Slice` is not stable; the
stable sort used here after an arbitrary `iter` yields every sorted
arrangement of the weeks. -/
def fetch (iter : List (String × Int) → List (String × Int))
    (get : Except String Response) : Except FetchError (List week) :=
  match get with
  | .error e => .error (.transport e)
  | .ok resp =>
    if resp.statusCode ≠ 200 then .error (.badStatus resp.statusCode)
    else
      match resp.records with
      | [] => .error .csvEOF
      | hdrr :: rows =>
        match readRows hdrr.length (hdrIndex hdrr "Week_Range")
            (hdrIndex hdrr "Ridership_Total") rows [] with
        | .error e => .error e
        | .ok weeks =>
          match buildWeeks (iter weeks) with
          | .error e => .error e
          | .ok out => .ok (sortByStart out)

/-! ## The done marker (main.go 375-389) -/

/-- The file `.doneWeek` as `ioutil.ReadFile` finds it. -/
inductive Marker where
  | absent
  | unreadable (err : String)
  | stored (content : String)
deriving DecidableEq, Repr

/-- The `isAlreadyDone` function of main.go 375-385. -/
def isAlreadyDone (file : Marker) (w : week) : Except String Bool :=
  match file with
  | .absent => .ok false
  | .unreadable err => .error err
  | .stored dc => .ok (decide (dc = formatDate w.end_))

/-- The `markDone` function of main.go 387-389: `writeErr` is the error of
`ioutil.WriteFile`, if any; on success the file holds the formatted date. -/
def markDone (writeErr : Option String) (file : Marker) (w : week) : Except String Marker :=
  match writeErr, file with
  | some e, _ => .error e
  | none, _ => .ok (.stored (formatDate w.end_))

/-! ## uploadMedia (main.go 299-373) and main (main.go 35-111) -/

/-- Content types `uploadMedia` sets: the multipart form type of the writer,
and `application/json; charset=UTF-8`. -/
inductive ContentType where
  | multipartForm
  | jsonUtf8
deriving DecidableEq, Repr

/-- Request bodies: the multipart form with the field `media`, and the JSON
object with `media_id` and `alt_text.text`. -/
inductive Body where
  | media (m : List Nat)
  | metadata (mediaID : String) (altText : String)
deriving DecidableEq, Repr

/-- An HTTP request handed to the client. -/
structure Request where
  method : String
  url : String
  contentType : ContentType
  body : Body
deriving DecidableEq, Repr

/-- What `uploadMedia` reads of a response: the status code and the result of
decoding `media_id` from the JSON body. -/
structure MediaResponse where
  statusCode : Nat
  mediaID : Except String Int

/-- The OAuth HTTP client: the result of `cl.Do(req)`. -/
abbrev Client := Request → Except String MediaResponse

/-- URL of the media upload endpoint. -/
def uploadURL : String := "https://upload.twitter.com/1.1/media/upload.json"

/-- URL of the endpoint that attaches alt text to an uploaded medium. -/
def metadataURL : String := "https://upload.twitter.com/1.1/media/metadata/create.json"

/-- The `uploadMedia` function of main.go 299-373, returning the requests it
issued, in order, next to its result. Writing the form into the in-memory
buffer and building the requests do not fail. -/
def uploadMedia (cl : Client) (m : List Nat) (altText : String) :
    List Request × Except String Int :=
  let req1 : Request := ⟨"POST", uploadURL, .multipartForm, .media m⟩
  match cl req1 with
  | .error e => ([req1], .error e)
  | .ok resp =>
    if resp.statusCode / 100 ≠ 2 then
      ([req1], .error ("got status " ++ toString resp.statusCode))
    else
      match resp.mediaID with
      | .error e => ([req1], .error e)
      | .ok mediaID =>
        if altText = "" then ([req1], .ok mediaID)
        else
          let req2 : Request :=
            ⟨"POST", metadataURL, .jsonUtf8, .metadata (toString mediaID) altText⟩
          match cl req2 with
          | .error e => ([req1, req2], .error e)
          | .ok resp2 =>
            if resp2.statusCode / 100 ≠ 2 then
              ([req1, req2], .error ("got status " ++ toString resp2.statusCode))
            else ([req1, req2], .ok mediaID)

/-- Day of the week of a calendar date, 0 for Sunday. -/
def weekday (d : Date) : Nat :=
  let t : List Int := [0, 3, 2, 5, 0, 3, 5, 1, 4, 6, 2, 4]
  let y : Int := if d.month < 3 then d.year - 1 else d.year
  ((y + y / 4 - y / 100 + y / 400 + t.getD (d.month - 1) 0 + (d.day : Int)) % 7).toNat

/-- Go `t.Format("Mon Jan 02")`. -/
def formatDay (d : Date) : String :=
  ["Sun", "Mon", "Tue", "Wed", "Thu", "Fri", "Sat"].getD (weekday d) ""
    ++ " "
    ++ ["Jan", "Feb", "Mar", "Apr", "May", "Jun", "Jul", "Aug", "Sep", "Oct",
        "Nov", "Dec"].getD (d.month - 1) ""
    ++ " " ++ appendInt d.day 2

/-- The configuration `envdecode.Decode` fills in. -/
structure Config where
  twitterConsumerKey : String
  twitterConsumerSecret : String
  twitterAppToken : String
  twitterAppSecret : String
  testMode : Bool

/-- The tweet `Statuses.Update` returns, as far as `main` reads it. -/
structure Tweet where
  screenName : String
  idStr : String

/-- Everything outside the program that one run of `main` consults. -/
structure World where
  env : Except String Config
  iter : List (String × Int) → List (String × Int)
  get : Except String Response
  marker : Marker
  graph : List week → Except String (List Nat)
  writeGraph : Option String
  cl : Client
  statusesUpdate : String → List Int → Except String Tweet
  writeMarker : Option String

/-- The effects of a run that the outside can observe. -/
inductive Event where
  | logTweet (stxt : String) (len : Nat) (atxt : String)
  | graphWritten (png : List Nat)
  | request (r : Request)
  | statusUpdate (status : String) (mediaIds : List Int)
  | printed (line : String)
  | markerWritten (content : String)
deriving DecidableEq, Repr

/-- How a run ends: `log.Fatal` with a message, `log.Fatal("fetching:", err)`
for an error `err` of `fetch` (the message is `fetching:` followed by the
text of `err`), or a plain return. -/
inductive Exit where
  | fatal (msg : String)
  | fatalFetching (err : FetchError)
  | returned
deriving DecidableEq, Repr

/-- The steps of `main` from the test-mode check on (main.go 82-110). -/
def publish (w : World) (cfg : Config) (lastWeek : week) (gb : List Nat)
    (stxt : String) : List Event × Exit :=
  if cfg.testMode then
    match w.writeGraph with
    | some e => ([], .fatal ("writing graph:" ++ e))
    | none => ([.graphWritten gb], .returned)
  else
    match uploadMedia w.cl gb "" with
    | (reqs, .error e) => (reqs.map Event.request, .fatal ("uploading graph as media:" ++ e))
    | (reqs, .ok mid) =>
      match w.statusesUpdate stxt [mid] with
      | .error e =>
        (reqs.map Event.request ++ [.statusUpdate stxt [mid]],
          .fatal ("creating status update:" ++ e))
      | .ok tw =>
        let line := "https://twitter.com/" ++ tw.screenName ++ "/status/" ++ tw.idStr
        let done := reqs.map Event.request ++ [.statusUpdate stxt [mid], .printed line]
        match markDone w.writeMarker w.marker lastWeek with
        | .error e => (done, .fatal ("marking done:" ++ e))
        | .ok _ => (done ++ [.markerWritten (formatDate lastWeek.end_)], .returned)

/-- The `main` function of main.go 35-111: the observable events of the run,
in order, and how the run ends. -/
def main (w : World) : List Event × Exit :=
  match w.env with
  | .error e => ([], .fatal e)
  | .ok cfg =>
    match fetch w.iter w.get with
    | .error err => ([], .fatalFetching err)
    | .ok all =>
      if all.length = 0 then ([], .returned)
      else
        let want := if all.length < 8 then all.length else 8
        let data := all.drop (all.length - want)
        match data[data.length - 1]? with
        | none => ([], .returned)
        | some lastWeek =>
          match isAlreadyDone w.marker lastWeek with
          | .error e => ([], .fatal ("checking if already done:" ++ e))
          | .ok true => ([], .returned)
          | .ok false =>
            match w.graph data with
            | .error e => ([], .fatal ("graphing:" ++ e))
            | .ok gb =>
              let stxt := "Week ending " ++ formatDay lastWeek.end_ ++ " had "
                ++ english.fmtInt lastWeek.count ++ " passengers"
              let atxt := altText data english
              let r := publish w cfg lastWeek gb stxt
              (Event.logTweet stxt stxt.utf8ByteSize atxt :: r.1, r.2)

/-! ## Named parts of the statements -/

/-- The value `altText` assigns to `pct` for the counts of the last two weeks
(main.go 120-126). -/
def goPct (cur prev : Int) : Int :=
  if cur > prev then pctOf (wrapInt (cur - prev)) prev
  else pctOf (wrapInt (prev - cur)) prev

/-- The value `altText` assigns to `moreOrFewer` (main.go 120-126). -/
def goWord (cur prev : Int) : String :=
  if cur > prev then "more" else "fewer"

/-- The percentage as the specification words it: the exact quotient relative
to the previous count, times 100, rounded down. -/
def specPct (cur prev : Int) : Int :=
  if cur > prev then ⌊(((cur - prev : Int) : ℚ) / (prev : ℚ)) * 100⌋
  else ⌊(((prev - cur : Int) : ℚ) / (prev : ℚ)) * 100⌋

/-- The comparison clause with a percentage, as the specification words it. -/
def specPercentText (n : Nat) (cur prev : Int) : String :=
  leadText n english ++ " The most recent count of " ++ english.fmtInt cur ++ " is "
    ++ toString (specPct cur prev) ++ "% " ++ goWord cur prev ++ " than the previous week."

/-- The comparison clause without a percentage. -/
def sameText (n : Nat) (cur : Int) : String :=
  leadText n english ++ " The most recent count of " ++ english.fmtInt cur
    ++ " is about the same as the previous week."

/-- The week-range label `rec[hdr["Week_Range"]]` of a data record. -/
def rowLabel (hdrr rec : List String) : String :=
  rec.getD (hdrIndex hdrr "Week_Range") ""

/-- The ridership field `rec[hdr["Ridership_Total"]]` of a data record. -/
def rowRidership (hdrr rec : List String) : String :=
  rec.getD (hdrIndex hdrr "Ridership_Total") ""

/-- The ridership value of a data record (0 when the field is no integer). -/
def rowCount (hdrr rec : List String) : Int :=
  (atoi (rowRidership hdrr rec)).getD 0

/-- The dates of a week-range label: `time.Parse` of its tokens 0 and 2. -/
def labelDates (wr : String) : Option Date × Option Date :=
  (parseDate ((fieldsOf wr).getD 0 ""), parseDate ((fieldsOf wr).getD 2 ""))

/-- A well-formed week-range label: three tokens, tokens 0 and 2 dates. -/
def labelOK (wr : String) : Prop :=
  (fieldsOf wr).length = 3 ∧ (labelDates wr).1.isSome ∧ (labelDates wr).2.isSome

instance (wr : String) : Decidable (labelOK wr) := by
  unfold labelOK; exact inferInstance

/-- The week of a label and a count: start and end parsed from tokens 0 and 2
of the label. -/
def labelWeek (wr : String) (c : Int) : week :=
  ⟨(labelDates wr).1.getD ⟨0, 0, 0⟩, (labelDates wr).2.getD ⟨0, 0, 0⟩, c⟩

/-- A well-formed data row under the header `hdrr`: the field count of the
header, an integer ridership, a well-formed week-range label. -/
def wellFormedRow (hdrr rec : List String) : Prop :=
  rec.length = hdrr.length ∧ (atoi (rowRidership hdrr rec)).isSome ∧ labelOK (rowLabel hdrr rec)

instance (hdrr rec : List String) : Decidable (wellFormedRow hdrr rec) := by
  unfold wellFormedRow; exact inferInstance

/-- The exact sum of the ridership values of the rows that carry the label. -/
def labelSum (hdrr : List String) (rows : List (List String)) (wr : String) : Int :=
  ((rows.filter (fun r => decide (rowLabel hdrr r = wr))).map (rowCount hdrr)).sum

/-- The value `weeks[wr]` of the aggregation map: 0 for an absent key. -/
def mapGet : List (String × Int) → String → Int
  | [], _ => 0
  | (k, v) :: rest, wr => if k = wr then v else mapGet rest wr

/-- The map `weeks` after the row loop has run over `rows` from the map `m`,
every ridership field being an integer. -/
def aggregate (hdrr : List String) (rows : List (List String))
    (m : List (String × Int)) : List (String × Int) :=
  rows.foldl (fun acc r => mapAdd acc (rowLabel hdrr r) (rowCount hdrr r)) m

/-- A normal-mode run that reaches the publishing step: two weeks of data
(5000, then 4500 passengers), no marker file, a client and a status endpoint
that accept every request. -/
def sampleWorld : World where
  env := .ok ⟨"key", "secret", "token", "tokensecret", false⟩
  iter := id
  get := .ok ⟨200, [["Week_Range", "Ridership_Total"],
    ["2020.01.01 .. 2020.01.07", "5000"], ["2020.01.08 .. 2020.01.14", "4500"]]⟩
  marker := .absent
  graph := fun _ => .ok [137, 80, 78, 71]
  writeGraph := none
  cl := fun _ => .ok ⟨200, .ok 42⟩
  statusesUpdate := fun _ _ => .ok ⟨"transithfx", "99"⟩
  writeMarker := none

/-- The rational number a numerator and denominator pair stands for. -/
def fval (r : Nat × Nat) : ℚ := (r.1 : ℚ) / (r.2 : ℚ)

/-- The text YYYY-MM-DD as the specification means it: the year in four
decimal digits, the month in two, the day in two, each padded with zeros, and
hyphens between them. -/
def isoText (year month day : Nat) : String :=
  String.mk [Nat.digitChar (year / 1000), Nat.digitChar (year / 100 % 10),
    Nat.digitChar (year / 10 % 10), Nat.digitChar (year % 10), '-',
    Nat.digitChar (month / 10), Nat.digitChar (month % 10), '-',
    Nat.digitChar (day / 10), Nat.digitChar (day % 10)]

/-- A date whose fields fit the pattern YYYY-MM-DD: a year from 0 to 9999, a
month and a day below 100. Every date `time.Parse("2006.01.02", s)` returns
is one. -/
def fitsISO (d : Date) : Prop :=
  0 ≤ d.year ∧ d.year ≤ 9999 ∧ d.month < 100 ∧ d.day < 100

instance (d : Date) : Decidable (fitsISO d) := by
  unfold fitsISO; exact inferInstance

/-! # Theorems -/

/-! ## Go `int` arithmetic -/

theorem wrapInt_add_wrapInt (a b : Int) : wrapInt (wrapInt a + b) = wrapInt (a + b) := by
  unfold wrapInt
  omega

theorem wrapInt_of_inInt64 (x : Int) (h : inInt64 x) : wrapInt x = x := by
  unfold inInt64 minInt64 maxInt64 at h
  unfold wrapInt
  omega
/-! ## altText -/

theorem getElem?_last_two (pre : List week) (a b : week) :
    (pre ++ [a, b])[(pre ++ [a, b]).length - 1]? = some b ∧
    (pre ++ [a, b])[(pre ++ [a, b]).length - 2]? = some a := by
  constructor
  · rw [List.getElem?_append_right (by simp)]
    simp
  · rw [List.getElem?_append_right (by simp)]
    simp

theorem altText_two (pre : List week) (prevWeek curWeek : week) (p : Printer) :
    altText (pre ++ [prevWeek, curWeek]) p =
      if goPct curWeek.count prevWeek.count > 0 then
        leadText (pre.length + 2) p ++ (" The most recent count of "
          ++ p.fmtInt curWeek.count ++ " is "
          ++ p.fmtInt (goPct curWeek.count prevWeek.count) ++ "% "
          ++ goWord curWeek.count prevWeek.count ++ " than the previous week.")
      else
        leadText (pre.length + 2) p ++ (" The most recent count of "
          ++ p.fmtInt curWeek.count ++ " is about the same as the previous week.") := by
  obtain ⟨h1, h2⟩ := getElem?_last_two pre prevWeek curWeek
  unfold altText
  simp only [h1, h2]
  have hlen : (pre ++ [prevWeek, curWeek]).length = pre.length + 2 := by simp
  rw [hlen]
  have : pre.length + 2 > 1 := by omega
  simp only [this, if_true, goPct, goWord]

theorem digitChar_ne_a (k : Nat) (hk : k < 10) : Nat.digitChar k ≠ 'a' := by
  interval_cases k <;> decide

theorem toDigitsCore_chars (fuel : Nat) :
    ∀ (n : Nat) (ds : List Char), (∀ c ∈ ds, c ≠ 'a') →
      ∀ c ∈ Nat.toDigitsCore 10 fuel n ds, c ≠ 'a' := by
  induction fuel with
  | zero => intro n ds h c hc; simpa [Nat.toDigitsCore] using h c hc
  | succ fuel ih =>
    intro n ds h c hc
    have hd : Nat.digitChar (n % 10) ≠ 'a' := digitChar_ne_a _ (Nat.mod_lt _ (by decide))
    have hds : ∀ c ∈ Nat.digitChar (n % 10) :: ds, c ≠ 'a' := by
      intro c hc
      rcases List.mem_cons.mp hc with rfl | hc
      · exact hd
      · exact h c hc
    unfold Nat.toDigitsCore at hc
    dsimp only at hc
    split at hc
    · exact hds c hc
    · exact ih _ _ hds c hc

theorem toDigitsCore_ne_nil (fuel : Nat) :
    ∀ (n : Nat) (ds : List Char), ds ≠ [] → Nat.toDigitsCore 10 fuel n ds ≠ [] := by
  induction fuel with
  | zero => intro n ds h; simpa [Nat.toDigitsCore] using h
  | succ fuel ih =>
    intro n ds _
    unfold Nat.toDigitsCore
    dsimp only
    split
    · simp
    · exact ih _ _ (by simp)

theorem decimal_chars (n : Nat) : ∀ c ∈ decimal n, c ≠ 'a' :=
  toDigitsCore_chars _ _ _ (by simp)

theorem decimal_ne_nil (n : Nat) : decimal n ≠ [] := by
  unfold decimal Nat.toDigits Nat.toDigitsCore
  dsimp only
  split
  · simp
  · exact toDigitsCore_ne_nil _ _ _ (by simp)

theorem groupRev_chars : ∀ (l : List Char) (k : Nat), (∀ c ∈ l, c ≠ 'a') →
    ∀ c ∈ groupRev k l, c ≠ 'a' := by
  intro l
  induction l with
  | nil => intro k _ c hc; simp [groupRev] at hc
  | cons x rest ih =>
    intro k h c hc
    have hx : x ≠ 'a' := h x (by simp)
    have hrest : ∀ c ∈ rest, c ≠ 'a' := fun c hc => h c (by simp [hc])
    unfold groupRev at hc
    split at hc
    · rcases List.mem_cons.mp hc with rfl | hc
      · decide
      · rcases List.mem_cons.mp hc with rfl | hc
        · exact hx
        · exact ih _ hrest c hc
    · rcases List.mem_cons.mp hc with rfl | hc
      · exact hx
      · exact ih _ hrest c hc

theorem groupRev_ne_nil (l : List Char) (k : Nat) (h : l ≠ []) : groupRev k l ≠ [] := by
  cases l with
  | nil => exact absurd rfl h
  | cons x rest =>
    unfold groupRev
    split <;> simp

theorem groupThousands_chars (l : List Char) (h : ∀ c ∈ l, c ≠ 'a') :
    ∀ c ∈ groupThousands l, c ≠ 'a' := by
  intro c hc
  unfold groupThousands at hc
  rw [List.mem_reverse] at hc
  exact groupRev_chars _ _ (fun c hc => h c (List.mem_reverse.mp hc)) c hc

theorem groupThousands_ne_nil (l : List Char) (h : l ≠ []) : groupThousands l ≠ [] := by
  unfold groupThousands
  intro hnil
  rw [List.reverse_eq_nil_iff] at hnil
  exact groupRev_ne_nil _ _ (by simpa using h) hnil

/-- The English rendering of a number is not empty and does not start with
the letter that starts `about`. -/
theorem fmtInt_head (x : Int) :
    ∃ c tl, (english.fmtInt x).data = c :: tl ∧ c ≠ 'a' := by
  have hb : ∀ c ∈ groupThousands (decimal x.natAbs), c ≠ 'a' :=
    groupThousands_chars _ (decimal_chars _)
  have hn : groupThousands (decimal x.natAbs) ≠ [] := groupThousands_ne_nil _ (decimal_ne_nil _)
  by_cases hx : x < 0
  · refine ⟨'-', groupThousands (decimal x.natAbs), ?_, by decide⟩
    simp [english, hx]
  · obtain ⟨c, tl, hctl⟩ := List.exists_cons_of_ne_nil hn
    refine ⟨c, tl, ?_, hb c (by simp [hctl])⟩
    simp [english, hx, hctl]

theorem fmtInt_small (n : Nat) (h : n ≤ 8) : english.fmtInt (n : Int) = toString n := by
  interval_cases n <;> decide

theorem percent_ne_same (n : Nat) (cur pct : Int) (w : String) (p : Printer) :
    leadText n p ++ (" The most recent count of " ++ english.fmtInt cur ++ " is "
        ++ english.fmtInt pct ++ "% " ++ w ++ " than the previous week.") ≠
      leadText n p ++ (" The most recent count of " ++ english.fmtInt cur
        ++ " is about the same as the previous week.") := by
  intro h
  have h2 := congrArg String.data h
  simp only [String.data_append, List.append_assoc] at h2
  have h3 := List.append_cancel_left (List.append_cancel_left (List.append_cancel_left h2))
  obtain ⟨c, tl, hc, hne⟩ := fmtInt_head pct
  rw [hc] at h3
  simp only [List.cons_append, List.nil_append, List.cons.injEq] at h3
  exact hne h3.2.2.2.2.1

/-! ## float64 rounding: the error of one operation -/

theorem roundF64_zero (d : Nat) : roundF64 0 d = (0, 1) := by
  simp [roundF64]

theorem log2Aux_spec : ∀ (fuel n : Nat), n ≤ fuel → 1 ≤ n →
    2 ^ log2Aux fuel n ≤ n ∧ n < 2 ^ (log2Aux fuel n + 1) := by
  intro fuel
  induction fuel with
  | zero => intro n h0 h1; omega
  | succ fuel ih =>
    intro n hle h1
    unfold log2Aux
    by_cases h2 : n < 2
    · rw [if_pos h2]
      simp only [pow_zero, zero_add, pow_one]
      omega
    · rw [if_neg h2]
      obtain ⟨hlo, hhi⟩ := ih (n / 2) (by omega) (by omega)
      rw [pow_succ] at hhi ⊢
      rw [pow_succ]
      constructor <;> omega

theorem log2_spec (n : Nat) (h : 1 ≤ n) : 2 ^ log2 n ≤ n ∧ n < 2 ^ (log2 n + 1) :=
  log2Aux_spec n n (le_refl n) h

theorem scaleBy_pos (n d : Nat) (e : Int) (hd : 1 ≤ d) : 1 ≤ (scaleBy n d e).2 := by
  unfold scaleBy
  split
  · exact Nat.mul_pos hd (pow_pos (by decide) _)
  · exact hd

theorem scaleBy_fval (n d : Nat) (e : Int) (hd : 1 ≤ d) :
    fval (scaleBy n d e) = (n : ℚ) / (d : ℚ) / (2 : ℚ) ^ e := by
  have hd' : (d : ℚ) ≠ 0 := by positivity
  unfold scaleBy fval
  split
  · rename_i he
    obtain ⟨k, rfl⟩ := Int.eq_ofNat_of_zero_le he
    simp only [Int.toNat_ofNat, Nat.cast_mul, Nat.cast_pow, Nat.cast_ofNat, zpow_natCast]
    rw [div_div]
  · rename_i he
    have hneg : 0 ≤ -e := by omega
    obtain ⟨k, hk⟩ := Int.eq_ofNat_of_zero_le hneg
    have he' : e = -(k : Int) := by omega
    subst he'
    simp only [neg_neg, Int.toNat_ofNat, Nat.cast_mul, Nat.cast_pow, Nat.cast_ofNat,
      zpow_neg, zpow_natCast]
    field_simp

theorem f64Exponent_spec (n d : Nat) (hn : 1 ≤ n) (hd : 1 ≤ d) :
    (2 : ℚ) ^ 52 * (2 : ℚ) ^ (f64Exponent n d) ≤ (n : ℚ) / (d : ℚ) ∧
    (n : ℚ) / (d : ℚ) < (2 : ℚ) ^ 53 * (2 : ℚ) ^ (f64Exponent n d) := by
  obtain ⟨hnlo, hnhi⟩ := log2_spec n hn
  obtain ⟨hdlo, hdhi⟩ := log2_spec d hd
  have hdq : (0 : ℚ) < d := by positivity
  have hnlo' : (2 : ℚ) ^ (log2 n : Int) ≤ n := by
    rw [zpow_natCast]; exact_mod_cast hnlo
  have hnhi' : (n : ℚ) < (2 : ℚ) ^ ((log2 n : Int) + 1) := by
    rw [zpow_add_one₀ (by norm_num), zpow_natCast, ← pow_succ]; exact_mod_cast hnhi
  have hdlo' : (2 : ℚ) ^ (log2 d : Int) ≤ d := by
    rw [zpow_natCast]; exact_mod_cast hdlo
  have hdhi' : (d : ℚ) < (2 : ℚ) ^ ((log2 d : Int) + 1) := by
    rw [zpow_add_one₀ (by norm_num), zpow_natCast, ← pow_succ]; exact_mod_cast hdhi
  have h2 : (2 : ℚ) ≠ 0 := by norm_num
  -- the quotient lies strictly between 2^(a-b-1) and 2^(a-b+1)
  have hlow : (2 : ℚ) ^ ((log2 n : Int) - (log2 d : Int) - 1) < (n : ℚ) / d := by
    rw [lt_div_iff₀ hdq]
    calc (2 : ℚ) ^ ((log2 n : Int) - (log2 d : Int) - 1) * d
        < (2 : ℚ) ^ ((log2 n : Int) - (log2 d : Int) - 1) * (2 : ℚ) ^ ((log2 d : Int) + 1) :=
          mul_lt_mul_of_pos_left hdhi' (zpow_pos (by norm_num) _)
      _ = (2 : ℚ) ^ (log2 n : Int) := by rw [← zpow_add₀ h2]; congr 1; ring
      _ ≤ n := hnlo'
  have hhigh : (n : ℚ) / d < (2 : ℚ) ^ ((log2 n : Int) - (log2 d : Int) + 1) := by
    rw [div_lt_iff₀ hdq]
    calc (n : ℚ) < (2 : ℚ) ^ ((log2 n : Int) + 1) := hnhi'
      _ = (2 : ℚ) ^ ((log2 n : Int) - (log2 d : Int) + 1) * (2 : ℚ) ^ (log2 d : Int) := by
          rw [← zpow_add₀ h2]; congr 1; ring
      _ ≤ (2 : ℚ) ^ ((log2 n : Int) - (log2 d : Int) + 1) * d :=
          mul_le_mul_of_nonneg_left hdlo' (le_of_lt (zpow_pos (by norm_num) _))
  have h52 : (2 : ℚ) ^ 52 = (2 : ℚ) ^ (52 : Int) := by norm_cast
  have h53 : (2 : ℚ) ^ 53 = (2 : ℚ) ^ (53 : Int) := by norm_cast
  rw [h52, h53]
  unfold f64Exponent
  dsimp only
  have hs := scaleBy_fval n d ((log2 n : Int) - (log2 d : Int) - 52) hd
  have hspos := scaleBy_pos n d ((log2 n : Int) - (log2 d : Int) - 52) hd
  have hsq : (0 : ℚ) < ((scaleBy n d ((log2 n : Int) - (log2 d : Int) - 52)).2 : ℚ) := by
    exact_mod_cast hspos
  have hcond : (scaleBy n d ((log2 n : Int) - (log2 d : Int) - 52)).1
        < 2 ^ 52 * (scaleBy n d ((log2 n : Int) - (log2 d : Int) - 52)).2
      ↔ (n : ℚ) / d < (2 : ℚ) ^ (52 : Int) * (2 : ℚ) ^ ((log2 n : Int) - (log2 d : Int) - 52) := by
    have hpos : (0 : ℚ) < (2 : ℚ) ^ ((log2 n : Int) - (log2 d : Int) - 52) :=
      zpow_pos (by norm_num) _
    rw [← div_lt_iff₀ hpos, ← hs, fval, div_lt_iff₀ hsq, ← h52]
    exact_mod_cast Iff.rfl
  split
  · rename_i hc
    rw [hcond] at hc
    rw [← zpow_add₀ h2, ← zpow_add₀ h2]
    constructor
    · have : (52 : Int) + ((log2 n : Int) - (log2 d : Int) - 52 - 1)
          = (log2 n : Int) - (log2 d : Int) - 1 := by ring
      rw [this]; exact le_of_lt hlow
    · have : (53 : Int) + ((log2 n : Int) - (log2 d : Int) - 52 - 1)
          = 52 + ((log2 n : Int) - (log2 d : Int) - 52) := by ring
      rw [this, zpow_add₀ h2]; exact hc
  · rename_i hc
    rw [hcond, not_lt] at hc
    refine ⟨hc, ?_⟩
    rw [← zpow_add₀ h2]
    have : (53 : Int) + ((log2 n : Int) - (log2 d : Int) - 52)
        = (log2 n : Int) - (log2 d : Int) + 1 := by ring
    rw [this]; exact hhigh

theorem roundHalfEven_error (n d : Nat) (hd : 1 ≤ d) :
    |(roundHalfEven n d : ℚ) - (n : ℚ) / (d : ℚ)| ≤ 1 / 2 := by
  have hdq : (0 : ℚ) < d := by positivity
  have hdiv : (n : ℚ) = (d : ℚ) * ((n / d : Nat) : ℚ) + ((n % d : Nat) : ℚ) := by
    exact_mod_cast (Nat.div_add_mod n d).symm
  have hmod : n % d < d := Nat.mod_lt _ hd
  have hmodq : ((n % d : Nat) : ℚ) < d := by exact_mod_cast hmod
  have hmod0 : (0 : ℚ) ≤ ((n % d : Nat) : ℚ) := by positivity
  have hval : (n : ℚ) / d = ((n / d : Nat) : ℚ) + ((n % d : Nat) : ℚ) / d := by
    rw [hdiv]; field_simp; ring
  rw [hval, abs_le]
  unfold roundHalfEven
  dsimp only
  split
  · rename_i h
    have hq : 2 * ((n % d : Nat) : ℚ) < d := by exact_mod_cast h
    have : ((n % d : Nat) : ℚ) / d < 1 / 2 := by
      rw [div_lt_iff₀ hdq]; linarith
    have : (0 : ℚ) ≤ ((n % d : Nat) : ℚ) / d := by positivity
    constructor <;> linarith
  · rename_i h
    have hge : (d : ℚ) ≤ 2 * ((n % d : Nat) : ℚ) := by
      have : d ≤ 2 * (n % d) := by omega
      exact_mod_cast this
    have h1 : (1 : ℚ) / 2 ≤ ((n % d : Nat) : ℚ) / d := by
      rw [le_div_iff₀ hdq]; linarith
    have h2 : ((n % d : Nat) : ℚ) / d < 1 := by
      rw [div_lt_iff₀ hdq]; linarith
    split
    · push_cast
      constructor <;> linarith
    · rename_i h'
      have heq : 2 * ((n % d : Nat) : ℚ) = d := by
        have : 2 * (n % d) = d := by omega
        exact_mod_cast this
      have h3 : ((n % d : Nat) : ℚ) / d = 1 / 2 := by
        rw [div_eq_iff (ne_of_gt hdq)]; linarith
      split
      · constructor <;> linarith
      · push_cast
        constructor <;> linarith

theorem roundF64_fval (n d : Nat) (hn : 1 ≤ n) :
    1 ≤ (roundF64 n d).2 ∧
    fval (roundF64 n d) =
      (roundHalfEven (scaleBy n d (f64Exponent n d)).1 (scaleBy n d (f64Exponent n d)).2 : ℚ)
        * (2 : ℚ) ^ (f64Exponent n d) := by
  unfold roundF64
  rw [if_neg (by omega)]
  dsimp only
  split
  · rename_i he
    obtain ⟨k, hk⟩ := Int.eq_ofNat_of_zero_le he
    rw [hk]
    refine ⟨le_refl 1, ?_⟩
    simp [fval]
  · rename_i he
    have hneg : 0 ≤ -(f64Exponent n d) := by omega
    obtain ⟨k, hk⟩ := Int.eq_ofNat_of_zero_le hneg
    have he' : f64Exponent n d = -(k : Int) := by omega
    rw [hk, he']
    refine ⟨Nat.one_le_two_pow, ?_⟩
    simp only [fval, Int.toNat_ofNat, Nat.cast_pow, Nat.cast_ofNat, zpow_neg, zpow_natCast]
    rw [div_eq_mul_inv]

/-- One float64 rounding moves a positive fraction by at most the fraction
times `2^-53`. -/
theorem roundF64_error (n d : Nat) (hn : 1 ≤ n) (hd : 1 ≤ d) :
    1 ≤ (roundF64 n d).2 ∧
    |fval (roundF64 n d) - (n : ℚ) / (d : ℚ)| ≤ (n : ℚ) / (d : ℚ) / (2 : ℚ) ^ 53 := by
  obtain ⟨hpos, hval⟩ := roundF64_fval n d hn
  refine ⟨hpos, ?_⟩
  obtain ⟨hlo, _⟩ := f64Exponent_spec n d hn hd
  have hs := scaleBy_fval n d (f64Exponent n d) hd
  have hr := roundHalfEven_error (scaleBy n d (f64Exponent n d)).1
    (scaleBy n d (f64Exponent n d)).2 (scaleBy_pos n d _ hd)
  have he : (0 : ℚ) < (2 : ℚ) ^ (f64Exponent n d) := zpow_pos (by norm_num) _
  rw [fval] at hs
  rw [hs] at hr
  rw [hval]
  set m : ℚ := (roundHalfEven (scaleBy n d (f64Exponent n d)).1
    (scaleBy n d (f64Exponent n d)).2 : ℚ) with hm
  set E : ℚ := (2 : ℚ) ^ (f64Exponent n d) with hE
  set v : ℚ := (n : ℚ) / (d : ℚ) with hv
  have hfact : m * E - v = (m - v / E) * E := by
    field_simp
  rw [hfact, abs_mul, abs_of_pos he]
  have h1 : |m - v / E| * E ≤ 1 / 2 * E := mul_le_mul_of_nonneg_right hr (le_of_lt he)
  have h2 : 1 / 2 * E ≤ v / 2 ^ 53 := by
    rw [le_div_iff₀ (by positivity)]
    have : (2 : ℚ) ^ 53 = 2 * 2 ^ 52 := by norm_num
    rw [this]
    linarith
  linarith

/-- Rounding a natural number below `2^53` to float64 is exact. -/
theorem roundF64_exact (k : Nat) (hk : 1 ≤ k) (hlt : k < 2 ^ 53) :
    1 ≤ (roundF64 k 1).2 ∧ fval (roundF64 k 1) = (k : ℚ) := by
  obtain ⟨hpos, hval⟩ := roundF64_fval k 1 hk
  refine ⟨hpos, ?_⟩
  obtain ⟨hlo, _⟩ := f64Exponent_spec k 1 hk (le_refl 1)
  have hk53 : (k : ℚ) < 2 ^ 53 := by exact_mod_cast hlt
  -- the exponent is not positive
  have hexp : f64Exponent k 1 ≤ 0 := by
    by_contra hcon
    have h1 : (1 : Int) ≤ f64Exponent k 1 := by omega
    have h2 : (2 : ℚ) ^ (1 : Int) ≤ (2 : ℚ) ^ (f64Exponent k 1) :=
      zpow_le_zpow_right₀ (by norm_num) h1
    simp only [zpow_one, Nat.cast_one, div_one] at h2 hlo
    have : (2 : ℚ) ^ 53 = 2 ^ 52 * 2 := by norm_num
    nlinarith
  have hneg : 0 ≤ -(f64Exponent k 1) := by omega
  obtain ⟨j, hj⟩ := Int.eq_ofNat_of_zero_le hneg
  have he' : f64Exponent k 1 = -(j : Int) := by omega
  rw [hval, he']
  have hscale : scaleBy k 1 (-(j : Int)) = (k * 2 ^ j, 1) := by
    unfold scaleBy
    by_cases hj0 : j = 0
    · subst hj0; simp
    · rw [if_neg (by omega)]
      simp
  rw [hscale]
  have hround : roundHalfEven (k * 2 ^ j) 1 = k * 2 ^ j := by
    unfold roundHalfEven
    simp [Nat.mod_one]
  rw [hround]
  simp only [Nat.cast_mul, Nat.cast_pow, Nat.cast_ofNat, zpow_neg, zpow_natCast]
  field_simp

theorem fval_pos_num (r : Nat × Nat) (h : 0 < fval r) : 1 ≤ r.1 := by
  by_contra hcon
  have h0 : r.1 = 0 := by omega
  simp [fval, h0] at h

theorem pctOf_zero (p : Int) (hp : 0 < p) (hp' : p < 2 ^ 53) : pctOf 0 p = 0 := by
  have hk : 1 ≤ p.natAbs := by omega
  have hlt : p.natAbs < 2 ^ 53 := by omega
  obtain ⟨_, hP⟩ := roundF64_exact p.natAbs hk hlt
  have hP1 : 1 ≤ (roundF64 p.natAbs 1).1 := by
    apply fval_pos_num
    rw [hP]
    exact_mod_cast hk
  have hne : (roundF64 p.natAbs 1).1 ≠ 0 := by omega
  have h100 : roundF64 (Int.natAbs 100) 1 = (7036874417766400, 70368744177664) := by
    decide
  unfold pctOf f64OfInt f64Div
  simp only [Int.natAbs_zero, roundF64_zero, hne, if_false, Nat.zero_mul, f64Mul, h100,
    f64ToInt]
  simp [inInt64, minInt64, maxInt64]

theorem natAbs_cast_of_nonneg (x : Int) (hx : 0 ≤ x) : ((x.natAbs : Nat) : ℚ) = (x : ℚ) := by
  rw [← Int.cast_natCast, Int.natAbs_of_nonneg hx]

theorem fval_mul_div (a b : Nat × Nat) (ha : 1 ≤ a.2) (hb1 : 1 ≤ b.1) (hb : 1 ≤ b.2) :
    ((a.1 * b.2 : Nat) : ℚ) / ((a.2 * b.1 : Nat) : ℚ) = fval a / fval b := by
  have h1 : (0 : ℚ) < (a.2 : ℚ) := by exact_mod_cast ha
  have h2 : (0 : ℚ) < (b.1 : ℚ) := by exact_mod_cast hb1
  have h3 : (0 : ℚ) < (b.2 : ℚ) := by exact_mod_cast hb
  unfold fval
  push_cast
  field_simp

theorem fval_mul_mul (a b : Nat × Nat) (ha : 1 ≤ a.2) (hb : 1 ≤ b.2) :
    ((a.1 * b.1 : Nat) : ℚ) / ((a.2 * b.2 : Nat) : ℚ) = fval a * fval b := by
  have h1 : (0 : ℚ) < (a.2 : ℚ) := by exact_mod_cast ha
  have h3 : (0 : ℚ) < (b.2 : ℚ) := by exact_mod_cast hb
  unfold fval
  push_cast
  field_simp

/-- The result of `pctOf` on positive operands, in terms of two roundings. -/
theorem pctOf_pos_eq (d p : Int) (hd : 0 < d) (hp : 0 < p) (D P C R₁ R₂ : Nat × Nat)
    (hD : D = roundF64 d.natAbs 1) (hP : P = roundF64 p.natAbs 1)
    (hC : C = roundF64 (Int.natAbs 100) 1) (hP1 : P.1 ≠ 0)
    (hR₁ : R₁ = roundF64 (D.1 * P.2) (D.2 * P.1))
    (hR₂ : R₂ = roundF64 (R₁.1 * C.1) (R₁.2 * C.2)) :
    pctOf d p =
      if inInt64 ((R₂.1 / R₂.2 : Nat) : Int) then ((R₂.1 / R₂.2 : Nat) : Int) else minInt64 := by
  have hdn : ¬ d < 0 := by omega
  have hpn : ¬ p < 0 := by omega
  subst hD hP hC hR₁ hR₂
  unfold pctOf f64OfInt f64Div
  simp only [hP1, if_false, f64Mul, f64ToInt, hdn, hpn, decide_False, Bool.xor_false,
    Bool.false_eq_true]
  rfl

/-- Two roundings in a row, each with relative error at most `2^-53`: the
bounds on the result, multiplied out. -/
theorem two_roundings_bounds (q x₁ x₂ : ℚ) (hq0 : 0 < q)
    (h1 : |x₁ - q| ≤ q / 2 ^ 53) (h2 : |x₂ - x₁ * 100| ≤ x₁ * 100 / 2 ^ 53) :
    100 * q - 100 * q * (2 / 2 ^ 53) ≤ x₂ ∧
    x₂ ≤ 100 * q + 100 * q * (2 / 2 ^ 53 + 1 / 2 ^ 106) := by
  obtain ⟨u, hu⟩ : ∃ u : ℚ, u = 1 / 2 ^ 53 := ⟨_, rfl⟩
  have hu0 : 0 < u := by rw [hu]; positivity
  have hu1 : u < 1 := by rw [hu]; norm_num
  have hqu : q / 2 ^ 53 = q * u := by rw [hu]; ring
  have hxu : x₁ * 100 / 2 ^ 53 = x₁ * 100 * u := by rw [hu]; ring
  have hu2 : (2 : ℚ) / 2 ^ 53 = 2 * u := by rw [hu]; ring
  have hu3 : (1 : ℚ) / 2 ^ 106 = u * u := by rw [hu]; norm_num
  rw [hqu] at h1
  rw [hxu] at h2
  rw [hu2, hu3]
  obtain ⟨h1lo, h1hi⟩ := abs_le.mp h1
  obtain ⟨h2lo, h2hi⟩ := abs_le.mp h2
  have hx1hi : x₁ * 100 ≤ 100 * q * (1 + u) := by linarith
  have hx1lo : 100 * q * (1 - u) ≤ x₁ * 100 := by linarith
  have hx2hi : x₂ ≤ 100 * q * (1 + u) * (1 + u) := by
    have := mul_le_mul_of_nonneg_right hx1hi (by linarith : (0 : ℚ) ≤ 1 + u)
    linarith
  have hx2lo : 100 * q * (1 - u) * (1 - u) ≤ x₂ := by
    have := mul_le_mul_of_nonneg_right hx1lo (by linarith : (0 : ℚ) ≤ 1 - u)
    linarith
  have huu : 0 ≤ 100 * q * (u * u) := by positivity
  constructor
  · nlinarith
  · nlinarith

/-- The float64 percentage against the exact one, for the sizes that occur:
for a difference `d ≥ 0` with `100 * d < 2^51` and a previous count
`0 < p < 2^53`, the value of `int(float64(d)/float64(p)*100.0)` is the exact
percentage rounded down, except that it may be one less when the exact
percentage is a whole number. -/
theorem pctOf_exact_or_one_less (d p : Int) (hd : 0 ≤ d) (hp : 0 < p)
    (hp' : p < 2 ^ 53) (hq : 100 * d < 2 ^ 51) :
    pctOf d p = 100 * d / p ∨ (pctOf d p = 100 * d / p - 1 ∧ (100 * d) % p = 0) := by
  rcases Nat.eq_zero_or_pos d.natAbs with hd0 | hdpos
  · have : d = 0 := by omega
    subst this
    rw [pctOf_zero p hp hp']
    left; simp
  have hdpos0 : 0 < d := by omega
  -- the operands are exact
  obtain ⟨D, hDdef⟩ : ∃ D, D = roundF64 d.natAbs 1 := ⟨_, rfl⟩
  obtain ⟨P, hPdef⟩ : ∃ P, P = roundF64 p.natAbs 1 := ⟨_, rfl⟩
  obtain ⟨C, hCdef⟩ : ∃ C, C = roundF64 (Int.natAbs 100) 1 := ⟨_, rfl⟩
  obtain ⟨hD2, hD⟩ := roundF64_exact d.natAbs hdpos (by omega)
  obtain ⟨hP2, hP⟩ := roundF64_exact p.natAbs (by omega) (by omega)
  obtain ⟨hC2, hC⟩ := roundF64_exact (Int.natAbs 100) (by decide) (by decide)
  rw [natAbs_cast_of_nonneg d hd, ← hDdef] at hD
  rw [natAbs_cast_of_nonneg p (le_of_lt hp), ← hPdef] at hP
  rw [natAbs_cast_of_nonneg 100 (by decide), ← hCdef] at hC
  rw [← hDdef] at hD2
  rw [← hPdef] at hP2
  rw [← hCdef] at hC2
  have hC100 : fval C = 100 := by rw [hC]; norm_num
  have hdq : (0 : ℚ) < d := by exact_mod_cast hdpos0
  have hpq : (0 : ℚ) < p := by exact_mod_cast hp
  have hD1 : 1 ≤ D.1 := fval_pos_num D (by rw [hD]; exact hdq)
  have hP1 : 1 ≤ P.1 := fval_pos_num P (by rw [hP]; exact hpq)
  have hC1 : 1 ≤ C.1 := fval_pos_num C (by rw [hC100]; norm_num)
  -- the division
  obtain ⟨R₁, hR₁def⟩ : ∃ R₁, R₁ = roundF64 (D.1 * P.2) (D.2 * P.1) := ⟨_, rfl⟩
  obtain ⟨hR12, hR1⟩ := roundF64_error (D.1 * P.2) (D.2 * P.1)
    (Nat.mul_pos hD1 hP2) (Nat.mul_pos hD2 hP1)
  rw [← hR₁def, fval_mul_div D P hD2 hP1 hP2, hD, hP] at hR1
  rw [← hR₁def] at hR12
  have hqpos : (0 : ℚ) < (d : ℚ) / p := div_pos hdq hpq
  have hx1pos : 0 < fval R₁ := by
    have h := (abs_le.mp hR1).1
    have h53 : (d : ℚ) / p / 2 ^ 53 < (d : ℚ) / p :=
      div_lt_self hqpos (by norm_num)
    linarith
  have hR11 : 1 ≤ R₁.1 := fval_pos_num R₁ hx1pos
  -- the multiplication
  obtain ⟨R₂, hR₂def⟩ : ∃ R₂, R₂ = roundF64 (R₁.1 * C.1) (R₁.2 * C.2) := ⟨_, rfl⟩
  obtain ⟨hR22, hR2⟩ := roundF64_error (R₁.1 * C.1) (R₁.2 * C.2)
    (Nat.mul_pos hR11 hC1) (Nat.mul_pos hR12 hC2)
  rw [← hR₂def, fval_mul_mul R₁ C hR12 hC2, hC100] at hR2
  rw [← hR₂def] at hR22
  obtain ⟨hlo, hhi⟩ := two_roundings_bounds _ _ _ hqpos hR1 hR2
  rw [pctOf_pos_eq d p hdpos0 hp D P C R₁ R₂ hDdef hPdef hCdef (by omega) hR₁def hR₂def]
  -- everything times p: X = x₂ * p lies in (A - 1/2, A + 1) for A = 100 * d
  have hAq : ((100 * d : Int) : ℚ) < 2 ^ 51 := by exact_mod_cast hq
  have hA0 : (0 : ℚ) < ((100 * d : Int) : ℚ) := by
    have : (0 : Int) < 100 * d := by omega
    exact_mod_cast this
  have h100q : 100 * ((d : ℚ) / p) * p = ((100 * d : Int) : ℚ) := by
    push_cast
    field_simp
  have hXlo : ((100 * d : Int) : ℚ) - 1 / 2 < fval R₂ * p := by
    have h := mul_le_mul_of_nonneg_right hlo (le_of_lt hpq)
    have e : (100 * ((d : ℚ) / p) - 100 * ((d : ℚ) / p) * (2 / 2 ^ 53)) * p
        = ((100 * d : Int) : ℚ) - ((100 * d : Int) : ℚ) * (2 / 2 ^ 53) := by
      rw [← h100q]; ring
    rw [e] at h
    have hc : ((100 * d : Int) : ℚ) * (2 / 2 ^ 53) < 1 / 2 := by
      have := mul_lt_mul_of_pos_right hAq (by norm_num : (0 : ℚ) < 2 / 2 ^ 53)
      have h2 : (2 : ℚ) ^ 51 * (2 / 2 ^ 53) = 1 / 2 := by norm_num
      linarith
    linarith
  have hXhi : fval R₂ * p < ((100 * d : Int) : ℚ) + 1 := by
    have h := mul_le_mul_of_nonneg_right hhi (le_of_lt hpq)
    have e : (100 * ((d : ℚ) / p) + 100 * ((d : ℚ) / p) * (2 / 2 ^ 53 + 1 / 2 ^ 106)) * p
        = ((100 * d : Int) : ℚ) + ((100 * d : Int) : ℚ) * (2 / 2 ^ 53 + 1 / 2 ^ 106) := by
      rw [← h100q]; ring
    rw [e] at h
    have hc : ((100 * d : Int) : ℚ) * (2 / 2 ^ 53 + 1 / 2 ^ 106) < 1 := by
      have := mul_lt_mul_of_pos_right hAq
        (by norm_num : (0 : ℚ) < 2 / 2 ^ 53 + 1 / 2 ^ 106)
      have h2 : (2 : ℚ) ^ 51 * (2 / 2 ^ 53 + 1 / 2 ^ 106) < 1 := by norm_num
      linarith
    linarith
  -- truncation
  have hR22q : (0 : ℚ) < (R₂.2 : ℚ) := by exact_mod_cast hR22
  have ht_lo : ((R₂.1 / R₂.2 : Nat) : ℚ) ≤ fval R₂ := by
    rw [fval, le_div_iff₀ hR22q]
    exact_mod_cast Nat.div_mul_le_self R₂.1 R₂.2
  have ht_hi : fval R₂ < ((R₂.1 / R₂.2 : Nat) : ℚ) + 1 := by
    rw [fval, div_lt_iff₀ hR22q]
    have := Nat.lt_div_mul_add hR22 (a := R₂.1)
    have h2 : R₂.1 < (R₂.1 / R₂.2 + 1) * R₂.2 := by
      rw [Nat.add_mul, Nat.one_mul]; exact this
    exact_mod_cast h2
  obtain ⟨t, htdef⟩ : ∃ t : Nat, t = R₂.1 / R₂.2 := ⟨_, rfl⟩
  obtain ⟨F, hFdef⟩ : ∃ F : Int, F = 100 * d / p := ⟨_, rfl⟩
  obtain ⟨r, hrdef⟩ : ∃ r : Int, r = (100 * d) % p := ⟨_, rfl⟩
  rw [← htdef] at ht_lo ht_hi ⊢
  rw [← hFdef, ← hrdef]
  have hdecomp : 100 * d = p * F + r := by
    rw [hFdef, hrdef]; exact (Int.ediv_add_emod (100 * d) p).symm
  have hr0 : 0 ≤ r := by rw [hrdef]; exact Int.emod_nonneg _ (ne_of_gt hp)
  have hrp : r < p := by rw [hrdef]; exact Int.emod_lt_of_pos _ hp
  -- integer consequences
  have hup : (t : Int) * p < 100 * d + 1 := by
    have h1 : ((t : Nat) : ℚ) * p < ((100 * d : Int) : ℚ) + 1 := by
      have := mul_le_mul_of_nonneg_right ht_lo (le_of_lt hpq)
      linarith
    have h2 : (((t : Int) * p : Int) : ℚ) < ((100 * d + 1 : Int) : ℚ) := by
      rw [Int.cast_mul, Int.cast_natCast, Int.cast_add, Int.cast_one]
      exact h1
    exact_mod_cast h2
  have hdown : 100 * d < ((t : Int) + 1) * p + 1 := by
    have h1 : ((100 * d : Int) : ℚ) < (((t : Nat) : ℚ) + 1) * p + 1 := by
      have := mul_lt_mul_of_pos_right ht_hi hpq
      linarith
    have h2 : ((100 * d : Int) : ℚ) < ((((t : Int) + 1) * p + 1 : Int) : ℚ) := by
      push_cast at h1 ⊢
      linarith
    exact_mod_cast h2
  have htF : (t : Int) ≤ F := by
    by_contra hcon
    have h1 : F + 1 ≤ (t : Int) := by omega
    have h2 : (F + 1) * p ≤ (t : Int) * p := Int.mul_le_mul_of_nonneg_right h1 (le_of_lt hp)
    have h3 : (F + 1) * p = p * F + p := by ring
    omega
  have hFt : F - 1 ≤ (t : Int) ∧ (1 ≤ r → F ≤ (t : Int)) := by
    constructor
    · by_contra hcon
      have h1 : (t : Int) + 1 ≤ F - 1 := by omega
      have h2 : ((t : Int) + 1) * p ≤ (F - 1) * p :=
        Int.mul_le_mul_of_nonneg_right h1 (le_of_lt hp)
      have h3 : (F - 1) * p = p * F - p := by ring
      omega
    · intro hr1
      by_contra hcon
      have h1 : (t : Int) + 1 ≤ F := by omega
      have h2 : ((t : Int) + 1) * p ≤ F * p :=
        Int.mul_le_mul_of_nonneg_right h1 (le_of_lt hp)
      have h3 : F * p = p * F := by ring
      omega
  have hFbound : F < 2 ^ 51 := by
    by_contra hcon
    have hF0 : (0 : Int) ≤ F := by omega
    have h1 : 1 * F ≤ p * F := Int.mul_le_mul_of_nonneg_right (by omega) hF0
    omega
  have hin : inInt64 (t : Int) := by
    unfold inInt64 minInt64 maxInt64
    constructor
    · have : (0 : Int) ≤ (t : Int) := Int.natCast_nonneg _
      omega
    · omega
  rw [if_pos hin]
  by_cases hr1 : 1 ≤ r
  · left
    have := hFt.2 hr1
    omega
  · have hr00 : r = 0 := by omega
    by_cases hteq : (t : Int) = F
    · left; exact hteq
    · right
      refine ⟨?_, hr00⟩
      have := hFt.1
      omega

theorem floor_pct (a p : Int) (hp : 0 < p) :
    ⌊((a : ℚ) / (p : ℚ)) * 100⌋ = 100 * a / p := by
  have hpq : (0 : ℚ) < p := by exact_mod_cast hp
  rw [Int.floor_eq_iff]
  constructor
  · rw [div_mul_eq_mul_div, le_div_iff₀ hpq]
    have := Int.ediv_mul_le (100 * a) (ne_of_gt hp)
    have h2 : (((100 * a / p) * p : Int) : ℚ) ≤ ((100 * a : Int) : ℚ) := by exact_mod_cast this
    push_cast at h2
    linarith
  · rw [div_mul_eq_mul_div, div_lt_iff₀ hpq]
    have := Int.lt_ediv_add_one_mul_self (100 * a) hp
    have h2 : ((100 * a : Int) : ℚ) < (((100 * a / p + 1) * p : Int) : ℚ) := by
      exact_mod_cast this
    push_cast at h2
    linarith

theorem pctOf_nonneg (d p : Int) (hd : 0 ≤ d) (hp : 0 < p) (hp' : p < 2 ^ 53)
    (hq : 100 * d < 2 ^ 51) : 0 ≤ pctOf d p := by
  have hF : 0 ≤ 100 * d / p := Int.ediv_nonneg (by omega) (le_of_lt hp)
  rcases pctOf_exact_or_one_less d p hd hp hp' hq with h | ⟨h, hr⟩
  · omega
  · by_cases hF1 : 1 ≤ 100 * d / p
    · omega
    · have hF0 : 100 * d / p = 0 := by omega
      have hdec := Int.ediv_add_emod (100 * d) p
      rw [hF0, hr] at hdec
      have hd0 : d = 0 := by omega
      subst hd0
      rw [pctOf_zero p hp hp'] at h
      omega

/-- The percentage `altText` computes against the percentage of the
specification, for a previous count `0 < prev < 2^53` and a difference with
`100 * |cur - prev| < 2^51`: they agree, except that the computed one may be
one less when the exact percentage is a whole number. -/
theorem goPct_exact_or_one_less (cur prev : Int) (hp : 0 < prev) (hp' : prev < 2 ^ 53)
    (hq : 100 * |cur - prev| < 2 ^ 51) :
    goPct cur prev = specPct cur prev ∨
      (goPct cur prev = specPct cur prev - 1 ∧ prev ∣ 100 * (cur - prev)) := by
  unfold goPct specPct
  by_cases h : cur > prev
  · rw [if_pos h, if_pos h, floor_pct _ _ hp]
    have habs : |cur - prev| = cur - prev := abs_of_pos (by omega)
    rw [habs] at hq
    have hin : inInt64 (cur - prev) := by
      unfold inInt64 minInt64 maxInt64; constructor <;> omega
    rw [wrapInt_of_inInt64 _ hin]
    rcases pctOf_exact_or_one_less (cur - prev) prev (by omega) hp hp' hq with h1 | ⟨h1, h2⟩
    · exact Or.inl h1
    · exact Or.inr ⟨h1, Int.dvd_of_emod_eq_zero h2⟩
  · rw [if_neg h, if_neg h, floor_pct _ _ hp]
    have habs : |cur - prev| = prev - cur := by
      rw [abs_of_nonpos (by omega)]; ring
    rw [habs] at hq
    have hin : inInt64 (prev - cur) := by
      unfold inInt64 minInt64 maxInt64; constructor <;> omega
    rw [wrapInt_of_inInt64 _ hin]
    rcases pctOf_exact_or_one_less (prev - cur) prev (by omega) hp hp' hq with h1 | ⟨h1, h2⟩
    · exact Or.inl h1
    · refine Or.inr ⟨h1, ?_⟩
      have hdvd : prev ∣ 100 * (prev - cur) := Int.dvd_of_emod_eq_zero h2
      have hneg : 100 * (cur - prev) = -(100 * (prev - cur)) := by ring
      rw [hneg]
      exact (dvd_neg).mpr hdvd

theorem goPct_nonneg (cur prev : Int) (hp : 0 < prev) (hp' : prev < 2 ^ 53)
    (hq : 100 * |cur - prev| < 2 ^ 51) : 0 ≤ goPct cur prev := by
  unfold goPct
  by_cases h : cur > prev
  · rw [if_pos h]
    have habs : |cur - prev| = cur - prev := abs_of_pos (by omega)
    rw [habs] at hq
    have hin : inInt64 (cur - prev) := by
      unfold inInt64 minInt64 maxInt64; constructor <;> omega
    rw [wrapInt_of_inInt64 _ hin]
    exact pctOf_nonneg _ _ (by omega) hp hp' hq
  · rw [if_neg h]
    have habs : |cur - prev| = prev - cur := by
      rw [abs_of_nonpos (by omega)]; ring
    rw [habs] at hq
    have hin : inInt64 (prev - cur) := by
      unfold inInt64 minInt64 maxInt64; constructor <;> omega
    rw [wrapInt_of_inInt64 _ hin]
    exact pctOf_nonneg _ _ (by omega) hp hp' hq

theorem altText_lead (data : List week) (p : Printer) :
    ∃ rest : String, altText data p = leadText data.length p ++ rest := by
  unfold altText
  dsimp only
  repeat' split
  all_goals first | exact ⟨_, rfl⟩ | exact ⟨"", by simp⟩

theorem altText_single (data : List week) (p : Printer) (h : data.length = 1) :
    altText data p = leadText 1 p := by
  unfold altText
  simp [h]

theorem specPct_129_100 : specPct 129 100 = 29 := by
  unfold specPct
  rw [if_pos (by decide)]
  rw [Int.floor_eq_iff]
  constructor <;> norm_num

/-- C1 (as stated, refuted): the previous week counted 100 passengers and the
current week 129. The exact percentage of the claim is 29, which is positive,
yet `altText` is not the text with that percentage: it reports 28%, because
`float64(29)/float64(100)*100.0` is 28.999999999999996. -/
theorem altText_percent_not_exact_floor :
    (0 : Int) < 100 ∧ 0 < specPct 129 100 ∧
    altText [⟨⟨2020, 1, 1⟩, ⟨2020, 1, 7⟩, 100⟩, ⟨⟨2020, 1, 8⟩, ⟨2020, 1, 14⟩, 129⟩] english
      = "Bar chart of passengers by week for last 2 weeks. The most recent count of 129 is 28% more than the previous week." ∧
    altText [⟨⟨2020, 1, 1⟩, ⟨2020, 1, 7⟩, 100⟩, ⟨⟨2020, 1, 8⟩, ⟨2020, 1, 14⟩, 129⟩] english
      ≠ specPercentText 2 129 100 := by
  have hs : specPct 129 100 = 29 := specPct_129_100
  have ha : altText [⟨⟨2020, 1, 1⟩, ⟨2020, 1, 7⟩, 100⟩, ⟨⟨2020, 1, 8⟩, ⟨2020, 1, 14⟩, 129⟩] english
      = "Bar chart of passengers by week for last 2 weeks. The most recent count of 129 is 28% more than the previous week." := by
    set_option maxRecDepth 20000 in decide
  refine ⟨by decide, by rw [hs]; decide, ha, ?_⟩
  rw [ha]
  unfold specPercentText
  rw [hs]
  decide

/-- C1 (amended): for every window that ends with the weeks `prevWeek` and
`curWeek`, let pct be the value of the Go expression
`int(float64(cur-prev)/float64(prev)*100.0)` when the current count is the
greater one (word "more") and of `int(float64(prev-cur)/float64(prev)*100.0)`
otherwise (word "fewer"), evaluated in 64-bit integer and float64 arithmetic.
Whenever pct > 0, the alt text of the English printer is exactly the leading
sentence followed by " The most recent count of <cur> is <pct>% <word> than
the previous week.", both numbers with comma thousands separators. The
percentage is relative to the previous count and truncated: for
`0 < prev < 2^53` and `100 * |cur - prev| < 2^51`, pct is the exact quotient
times 100 rounded down, except that it may be one less when that exact
percentage is a whole number. -/
theorem altText_percent_clause (pre : List week) (prevWeek curWeek : week)
    (hpct : 0 < goPct curWeek.count prevWeek.count) :
    altText (pre ++ [prevWeek, curWeek]) english =
      leadText (pre ++ [prevWeek, curWeek]).length english
        ++ " The most recent count of " ++ english.fmtInt curWeek.count ++ " is "
        ++ english.fmtInt (goPct curWeek.count prevWeek.count) ++ "% "
        ++ goWord curWeek.count prevWeek.count ++ " than the previous week." ∧
    (0 < prevWeek.count → prevWeek.count < 2 ^ 53 →
      100 * |curWeek.count - prevWeek.count| < 2 ^ 51 →
      goPct curWeek.count prevWeek.count = specPct curWeek.count prevWeek.count ∨
        (goPct curWeek.count prevWeek.count = specPct curWeek.count prevWeek.count - 1 ∧
          prevWeek.count ∣ 100 * (curWeek.count - prevWeek.count))) := by
  constructor
  · rw [altText_two, if_pos hpct]
    simp [String.append_assoc]
  · intro hp hp' hq
    exact goPct_exact_or_one_less _ _ hp hp' hq

/-- Witnesses of C1 (the two cases of `TestAltText`): 5000 then 4500 gives
"4,500 is 10% fewer", 5000 then 5500 gives "5,500 is 10% more". -/
theorem altText_percent_clause_witness :
    (0 < goPct 4500 5000 ∧
      altText ([] ++ [⟨⟨2020, 1, 1⟩, ⟨2020, 1, 7⟩, 5000⟩, ⟨⟨2020, 1, 8⟩, ⟨2020, 1, 14⟩, 4500⟩]) english
        = "Bar chart of passengers by week for last 2 weeks. The most recent count of 4,500 is 10% fewer than the previous week.") ∧
    (0 < goPct 5500 5000 ∧
      altText ([] ++ [⟨⟨2020, 1, 1⟩, ⟨2020, 1, 7⟩, 5000⟩, ⟨⟨2020, 1, 8⟩, ⟨2020, 1, 14⟩, 5500⟩]) english
        = "Bar chart of passengers by week for last 2 weeks. The most recent count of 5,500 is 10% more than the previous week.") := by
  have h1 : 0 < goPct 4500 5000 := by set_option maxRecDepth 20000 in decide
  have h2 : 0 < goPct 5500 5000 := by set_option maxRecDepth 20000 in decide
  refine ⟨⟨h1, ?_⟩, ⟨h2, ?_⟩⟩
  · rw [(altText_percent_clause [] ⟨⟨2020, 1, 1⟩, ⟨2020, 1, 7⟩, 5000⟩
      ⟨⟨2020, 1, 8⟩, ⟨2020, 1, 14⟩, 4500⟩ h1).1]
    set_option maxRecDepth 20000 in decide
  · rw [(altText_percent_clause [] ⟨⟨2020, 1, 1⟩, ⟨2020, 1, 7⟩, 5000⟩
      ⟨⟨2020, 1, 8⟩, ⟨2020, 1, 14⟩, 5500⟩ h2).1]
    set_option maxRecDepth 20000 in decide

theorem specPct_neg5_neg10 : specPct (-5) (-10) = -50 := by
  unfold specPct
  rw [if_pos (by decide)]
  rw [Int.floor_eq_iff]
  constructor <;> norm_num

/-- C2 (as stated, refuted): with the counts -10 then -5 the clause without a
percentage is produced although the percentage is -50, not 0, both as
`altText` computes it and as the exact quotient times 100 rounded down. -/
theorem altText_same_clause_nonzero_pct :
    goPct (-5) (-10) = -50 ∧ specPct (-5) (-10) = -50 ∧
    altText [⟨⟨2020, 1, 1⟩, ⟨2020, 1, 7⟩, -10⟩, ⟨⟨2020, 1, 8⟩, ⟨2020, 1, 14⟩, -5⟩] english
      = "Bar chart of passengers by week for last 2 weeks. The most recent count of -5 is about the same as the previous week." := by
  refine ⟨?_, specPct_neg5_neg10, ?_⟩
  · set_option maxRecDepth 20000 in decide
  · set_option maxRecDepth 20000 in decide

theorem goPct_self (c : Int) : goPct c c ≤ 0 := by
  unfold goPct
  rw [if_neg (lt_irrefl c), sub_self]
  have hw : wrapInt 0 = 0 := by decide
  have h100 : roundF64 (Int.natAbs 100) 1 = (7036874417766400, 70368744177664) := by
    decide
  rw [hw]
  unfold pctOf f64OfInt f64Div
  simp only [Int.natAbs_zero, roundF64_zero]
  by_cases hz : (roundF64 c.natAbs 1).1 = 0
  · simp [hz, f64Mul, f64ToInt, minInt64]
  · simp only [hz, if_false, Nat.zero_mul, roundF64_zero, f64Mul, h100, f64ToInt]
    simp [inInt64, minInt64, maxInt64]

/-- C2 (amended): for every window that ends with the weeks `prevWeek` and
`curWeek`: if the two counts are equal, the alt text of the English printer is
exactly the leading sentence followed by " The most recent count of <cur> is
about the same as the previous week." (so it ends with "is about the same as
the previous week."); the same text is produced whenever the truncated
percentage `altText` computes is 0, as for 5000 then 5001; and that clause
without a percentage is produced exactly when the computed percentage is not
positive, which means that it is 0 when `0 < prev < 2^53` and
`100 * |cur - prev| < 2^51`, and includes negative values otherwise. -/
theorem altText_same_clause (pre : List week) (prevWeek curWeek : week) :
    (curWeek.count = prevWeek.count →
      altText (pre ++ [prevWeek, curWeek]) english
        = sameText (pre ++ [prevWeek, curWeek]).length curWeek.count) ∧
    (goPct curWeek.count prevWeek.count = 0 →
      altText (pre ++ [prevWeek, curWeek]) english
        = sameText (pre ++ [prevWeek, curWeek]).length curWeek.count) ∧
    (altText (pre ++ [prevWeek, curWeek]) english
        = sameText (pre ++ [prevWeek, curWeek]).length curWeek.count
      ↔ goPct curWeek.count prevWeek.count ≤ 0) ∧
    (0 < prevWeek.count → prevWeek.count < 2 ^ 53 →
      100 * |curWeek.count - prevWeek.count| < 2 ^ 51 →
      (altText (pre ++ [prevWeek, curWeek]) english
          = sameText (pre ++ [prevWeek, curWeek]).length curWeek.count
        ↔ goPct curWeek.count prevWeek.count = 0)) ∧
    goPct 5001 5000 = 0 ∧
    altText [⟨⟨2020, 1, 1⟩, ⟨2020, 1, 7⟩, 5000⟩, ⟨⟨2020, 1, 8⟩, ⟨2020, 1, 14⟩, 5001⟩] english
      = "Bar chart of passengers by week for last 2 weeks. The most recent count of 5,001 is about the same as the previous week." := by
  have hlen : (pre ++ [prevWeek, curWeek]).length = pre.length + 2 := by simp
  have key : altText (pre ++ [prevWeek, curWeek]) english
        = sameText (pre ++ [prevWeek, curWeek]).length curWeek.count
      ↔ goPct curWeek.count prevWeek.count ≤ 0 := by
    rw [altText_two, hlen]
    constructor
    · intro h
      by_contra hpos
      rw [if_pos (by omega)] at h
      exact percent_ne_same _ _ _ _ _ (by
        rw [h]; simp [sameText, String.append_assoc])
    · intro h
      rw [if_neg (by omega)]
      simp [sameText, String.append_assoc]
  refine ⟨?_, ?_, key, ?_, ?_, ?_⟩
  · intro h
    rw [key, h]
    exact goPct_self _
  · intro h
    rw [key, h]
  · intro hp hp' hq
    rw [key]
    have := goPct_nonneg _ _ hp hp' hq
    omega
  · set_option maxRecDepth 20000 in decide
  · set_option maxRecDepth 20000 in decide

/-- C3: for every window of N weeks with 1 ≤ N ≤ 8 the alt text of the English
printer begins with "Bar chart of passengers by week for last N weeks.", N
being the length of the window in decimal, and for N = 1 the alt text is that
sentence and nothing more. -/
theorem altText_leading_sentence (data : List week)
    (_h1 : 1 ≤ data.length) (h8 : data.length ≤ 8) :
    (∃ rest : String, altText data english =
      "Bar chart of passengers by week for last " ++ toString data.length ++ " weeks." ++ rest) ∧
    (data.length = 1 →
      altText data english = "Bar chart of passengers by week for last 1 weeks.") := by
  constructor
  · obtain ⟨rest, hrest⟩ := altText_lead data english
    refine ⟨rest, ?_⟩
    rw [hrest, leadText, fmtInt_small _ h8]
  · intro h
    rw [altText_single data english h]
    decide

/-- Witness of C3: a window of three weeks, and a window of one week. -/
theorem altText_leading_sentence_witness :
    ((∃ rest : String,
        altText [⟨⟨2020, 1, 1⟩, ⟨2020, 1, 7⟩, 5⟩, ⟨⟨2020, 1, 8⟩, ⟨2020, 1, 14⟩, 6⟩,
          ⟨⟨2020, 1, 15⟩, ⟨2020, 1, 21⟩, 7⟩] english =
        "Bar chart of passengers by week for last " ++ toString 3 ++ " weeks." ++ rest)) ∧
    altText [⟨⟨2020, 1, 1⟩, ⟨2020, 1, 7⟩, 5⟩] english
      = "Bar chart of passengers by week for last 1 weeks." :=
  ⟨(altText_leading_sentence [⟨⟨2020, 1, 1⟩, ⟨2020, 1, 7⟩, 5⟩, ⟨⟨2020, 1, 8⟩, ⟨2020, 1, 14⟩, 6⟩,
      ⟨⟨2020, 1, 15⟩, ⟨2020, 1, 21⟩, 7⟩] (by decide) (by decide)).1,
   (altText_leading_sentence [⟨⟨2020, 1, 1⟩, ⟨2020, 1, 7⟩, 5⟩] (by decide) (by decide)).2 rfl⟩

/-! ## fetch: the aggregation map -/

theorem mapGet_mapAdd_same (m : List (String × Int)) (k : String) (c : Int) :
    mapGet (mapAdd m k c) k = wrapInt (mapGet m k + c) := by
  induction m with
  | nil => simp [mapAdd, mapGet]
  | cons x rest ih =>
    obtain ⟨k', v⟩ := x
    by_cases h : k' = k
    · simp [mapAdd, mapGet, h]
    · simp [mapAdd, mapGet, h, ih]

theorem mapGet_mapAdd_other (m : List (String × Int)) (k k' : String) (c : Int)
    (hne : k' ≠ k) : mapGet (mapAdd m k c) k' = mapGet m k' := by
  induction m with
  | nil => simp [mapAdd, mapGet, Ne.symm hne]
  | cons x rest ih =>
    obtain ⟨k₀, v⟩ := x
    by_cases h : k₀ = k
    · subst h
      simp [mapAdd, mapGet, Ne.symm hne]
    · by_cases h2 : k₀ = k'
      · subst h2
        simp [mapAdd, mapGet, hne]
      · simp [mapAdd, mapGet, h, h2, ih]

theorem mapAdd_keys (m : List (String × Int)) (k : String) (c : Int) :
    (mapAdd m k c).map Prod.fst =
      if k ∈ m.map Prod.fst then m.map Prod.fst else m.map Prod.fst ++ [k] := by
  induction m with
  | nil => simp [mapAdd]
  | cons x rest ih =>
    obtain ⟨k', v⟩ := x
    by_cases h : k' = k
    · simp [mapAdd, h]
    · have h' : ¬ k = k' := fun e => h e.symm
      simp only [mapAdd, h, if_false, List.map_cons, ih, List.mem_cons, h', false_or]
      split <;> simp

theorem mapAdd_mem_keys (m : List (String × Int)) (k k' : String) (c : Int) :
    k' ∈ (mapAdd m k c).map Prod.fst ↔ k' = k ∨ k' ∈ m.map Prod.fst := by
  rw [mapAdd_keys]
  split
  · constructor
    · intro h; exact Or.inr h
    · rintro (rfl | h)
      · assumption
      · exact h
  · simp only [List.mem_append, List.mem_singleton]
    tauto

theorem mapAdd_nodup (m : List (String × Int)) (k : String) (c : Int)
    (h : (m.map Prod.fst).Nodup) : ((mapAdd m k c).map Prod.fst).Nodup := by
  rw [mapAdd_keys]
  split
  · exact h
  · rename_i hk
    rw [List.nodup_append]
    refine ⟨h, by simp, ?_⟩
    intro a ha hb
    rw [List.mem_singleton] at hb
    subst hb
    exact hk ha

theorem labelSum_cons (hdrr : List String) (r : List String) (rows : List (List String))
    (wr : String) :
    labelSum hdrr (r :: rows) wr =
      (if rowLabel hdrr r = wr then rowCount hdrr r else 0) + labelSum hdrr rows wr := by
  unfold labelSum
  by_cases h : rowLabel hdrr r = wr
  · simp [List.filter_cons, h]
  · simp [List.filter_cons, h]

theorem aggregate_keys (hdrr : List String) (rows : List (List String)) :
    ∀ (m : List (String × Int)) (k : String),
      k ∈ (aggregate hdrr rows m).map Prod.fst ↔
        k ∈ m.map Prod.fst ∨ k ∈ rows.map (rowLabel hdrr) := by
  induction rows with
  | nil => intro m k; simp [aggregate]
  | cons r rows ih =>
    intro m k
    have := ih (mapAdd m (rowLabel hdrr r) (rowCount hdrr r)) k
    unfold aggregate at this ⊢
    rw [List.foldl_cons, this, mapAdd_mem_keys]
    simp only [List.map_cons, List.mem_cons]
    tauto

theorem aggregate_nodup (hdrr : List String) (rows : List (List String)) :
    ∀ (m : List (String × Int)), (m.map Prod.fst).Nodup →
      ((aggregate hdrr rows m).map Prod.fst).Nodup := by
  induction rows with
  | nil => intro m h; simpa [aggregate] using h
  | cons r rows ih =>
    intro m h
    have := ih (mapAdd m (rowLabel hdrr r) (rowCount hdrr r)) (mapAdd_nodup _ _ _ h)
    unfold aggregate at this ⊢
    rw [List.foldl_cons]
    exact this

theorem aggregate_get_not_mem (hdrr : List String) (rows : List (List String)) :
    ∀ (m : List (String × Int)) (k : String), k ∉ rows.map (rowLabel hdrr) →
      mapGet (aggregate hdrr rows m) k = mapGet m k := by
  induction rows with
  | nil => intro m k _; simp [aggregate]
  | cons r rows ih =>
    intro m k hk
    simp only [List.map_cons, List.mem_cons, not_or] at hk
    have := ih (mapAdd m (rowLabel hdrr r) (rowCount hdrr r)) k hk.2
    unfold aggregate at this ⊢
    rw [List.foldl_cons, this, mapGet_mapAdd_other _ _ _ _ hk.1]

theorem labelSum_not_mem (hdrr : List String) (rows : List (List String)) (k : String)
    (hk : k ∉ rows.map (rowLabel hdrr)) : labelSum hdrr rows k = 0 := by
  induction rows with
  | nil => simp [labelSum]
  | cons r rows ih =>
    simp only [List.map_cons, List.mem_cons, not_or] at hk
    rw [labelSum_cons, ih hk.2, if_neg (fun e => hk.1 e.symm)]
    simp

theorem aggregate_get (hdrr : List String) (rows : List (List String)) :
    ∀ (m : List (String × Int)) (k : String), k ∈ rows.map (rowLabel hdrr) →
      mapGet (aggregate hdrr rows m) k = wrapInt (mapGet m k + labelSum hdrr rows k) := by
  induction rows with
  | nil => intro m k hk; simp at hk
  | cons r rows ih =>
    intro m k hk
    have hfold : aggregate hdrr (r :: rows) m
        = aggregate hdrr rows (mapAdd m (rowLabel hdrr r) (rowCount hdrr r)) := by
      simp [aggregate]
    rw [hfold, labelSum_cons]
    by_cases hrest : k ∈ rows.map (rowLabel hdrr)
    · rw [ih _ k hrest]
      by_cases hr : rowLabel hdrr r = k
      · subst hr
        rw [mapGet_mapAdd_same, wrapInt_add_wrapInt, if_pos rfl]
        congr 1
        ring
      · rw [mapGet_mapAdd_other _ _ _ _ (fun e => hr e.symm), if_neg hr]
        simp
    · have hr : rowLabel hdrr r = k := by
        simp only [List.map_cons, List.mem_cons] at hk
        rcases hk with h | h
        · exact h.symm
        · exact absurd h hrest
      subst hr
      rw [aggregate_get_not_mem _ _ _ _ hrest, mapGet_mapAdd_same, if_pos rfl,
        labelSum_not_mem _ _ _ hrest]
      simp

theorem mem_iff_mapGet (m : List (String × Int)) (h : (m.map Prod.fst).Nodup)
    (k : String) (v : Int) :
    (k, v) ∈ m ↔ k ∈ m.map Prod.fst ∧ mapGet m k = v := by
  induction m with
  | nil => simp
  | cons x rest ih =>
    obtain ⟨k', v'⟩ := x
    simp only [List.map_cons, List.nodup_cons] at h
    by_cases hk : k' = k
    · subst hk
      have hnot : (k', v) ∉ rest := fun hmem => h.1 (List.mem_map_of_mem Prod.fst hmem)
      simp only [List.mem_cons, Prod.mk.injEq, hnot, or_false, List.map_cons, true_or,
        mapGet, if_true, true_and]
      exact eq_comm
    · have hk' : ¬ k = k' := fun e => hk e.symm
      simp only [List.mem_cons, Prod.mk.injEq, hk', false_and, false_or, List.map_cons,
        mapGet, hk, if_false]
      exact ih h.2

/-- The aggregation map after the row loop: one entry per distinct label, its
value the wrapped sum of the ridership values of the rows with that label. -/
theorem aggregate_perm (hdrr : List String) (rows : List (List String)) :
    (aggregate hdrr rows []).Perm
      ((rows.map (rowLabel hdrr)).dedup.map
        (fun wr => (wr, wrapInt (labelSum hdrr rows wr)))) := by
  have hnd : ((aggregate hdrr rows []).map Prod.fst).Nodup :=
    aggregate_nodup hdrr rows [] (by simp)
  rw [List.perm_ext_iff_of_nodup (List.Nodup.of_map _ hnd)
    ((List.nodup_dedup _).map (fun a b h => (Prod.mk.inj h).1))]
  rintro ⟨k, v⟩
  rw [mem_iff_mapGet _ hnd, aggregate_keys]
  simp only [List.map_nil, List.not_mem_nil, false_or, List.mem_map, List.mem_dedup,
    Prod.mk.injEq]
  constructor
  · rintro ⟨⟨r, hr, rfl⟩, hv⟩
    refine ⟨rowLabel hdrr r, ⟨r, hr, rfl⟩, rfl, ?_⟩
    rw [← hv, aggregate_get _ _ _ _ (List.mem_map_of_mem _ hr)]
    simp [mapGet]
  · rintro ⟨wr, ⟨r, hr, rfl⟩, rfl, rfl⟩
    refine ⟨⟨r, hr, rfl⟩, ?_⟩
    rw [aggregate_get _ _ _ _ (List.mem_map_of_mem _ hr)]
    simp [mapGet]

/-! ## fetch: the loops and the sort -/

theorem readRows_ok (hdrr : List String) (rows : List (List String))
    (hwf : ∀ r ∈ rows, r.length = hdrr.length ∧ (atoi (rowRidership hdrr r)).isSome) :
    ∀ m : List (String × Int),
      readRows hdrr.length (hdrIndex hdrr "Week_Range") (hdrIndex hdrr "Ridership_Total")
        rows m = .ok (aggregate hdrr rows m) := by
  induction rows with
  | nil => intro m; simp [readRows, aggregate]
  | cons r rows ih =>
    intro m
    obtain ⟨hlen, hint⟩ := hwf r (by simp)
    obtain ⟨c, hc⟩ := Option.isSome_iff_exists.mp hint
    have hc' : atoi (r.getD (hdrIndex hdrr "Ridership_Total") "") = some c := hc
    have hcount : rowCount hdrr r = c := by simp [rowCount, hc]
    unfold readRows
    rw [if_neg (by simpa using hlen)]
    simp only [hc']
    rw [ih (fun r' hr' => hwf r' (by simp [hr']))]
    simp [aggregate, rowLabel, ← hcount]

theorem readRows_ok_inv (hdrr : List String) (rows : List (List String)) :
    ∀ (m weeks : List (String × Int)),
      readRows hdrr.length (hdrIndex hdrr "Week_Range") (hdrIndex hdrr "Ridership_Total")
        rows m = .ok weeks →
      ∀ r ∈ rows, r.length = hdrr.length ∧ (atoi (rowRidership hdrr r)).isSome := by
  induction rows with
  | nil => intro m weeks _ r hr; simp at hr
  | cons r rows ih =>
    intro m weeks h r' hr'
    unfold readRows at h
    split at h
    · exact absurd h (by simp)
    · rename_i hlen
      simp only [ne_eq, Decidable.not_not] at hlen
      dsimp only at h
      split at h
      · exact absurd h (by simp)
      · rename_i c hc
        rcases List.mem_cons.mp hr' with rfl | hmem
        · exact ⟨hlen, by unfold rowRidership; rw [hc]; rfl⟩
        · exact ih _ _ h r' hmem

theorem readRows_error (nf wi ri : Nat) (rows : List (List String))
    (hbad : ∃ r ∈ rows, atoi (r.getD ri "") = none) :
    ∀ m : List (String × Int), ∃ e, readRows nf wi ri rows m = .error e := by
  induction rows with
  | nil => obtain ⟨r, hr, _⟩ := hbad; simp at hr
  | cons r rows ih =>
    intro m
    unfold readRows
    split
    · exact ⟨_, rfl⟩
    · dsimp only
      split
      · exact ⟨_, rfl⟩
      · rename_i c hc
        obtain ⟨r', hr', hnone⟩ := hbad
        rcases List.mem_cons.mp hr' with rfl | hmem
        · rw [hnone] at hc; exact absurd hc (by simp)
        · exact ih ⟨r', hmem, hnone⟩ _

theorem parseWeek_ok (wr : String) (c : Int) (h : labelOK wr) :
    parseWeek wr c = .ok (labelWeek wr c) := by
  obtain ⟨h3, hs, he⟩ := h
  obtain ⟨sdt, hsdt⟩ := Option.isSome_iff_exists.mp hs
  obtain ⟨edt, hedt⟩ := Option.isSome_iff_exists.mp he
  simp only [labelDates] at hsdt hedt
  unfold parseWeek
  dsimp only
  rw [if_neg (by simp [h3])]
  simp only [hsdt, hedt, labelWeek, labelDates, Option.getD_some]

theorem parseWeek_ok_inv (wr : String) (c : Int) (w : week) (h : parseWeek wr c = .ok w) :
    labelOK wr ∧ w = labelWeek wr c := by
  unfold parseWeek at h
  dsimp only at h
  split at h
  · exact absurd h (by simp)
  · rename_i h3
    simp only [ne_eq, Decidable.not_not] at h3
    split at h
    · exact absurd h (by simp)
    · rename_i sdt hsdt
      split at h
      · exact absurd h (by simp)
      · rename_i edt hedt
        simp only [Except.ok.injEq] at h
        subst h
        simp only [labelOK, labelWeek, labelDates, h3, hsdt, hedt, Option.isSome_some,
          Option.getD_some, and_self]

theorem buildWeeks_ok (l : List (String × Int)) (h : ∀ e ∈ l, labelOK e.1) :
    buildWeeks l = .ok (l.map (fun e => labelWeek e.1 e.2)) := by
  induction l with
  | nil => simp [buildWeeks]
  | cons e rest ih =>
    obtain ⟨wr, c⟩ := e
    unfold buildWeeks
    rw [parseWeek_ok wr c (h (wr, c) (by simp))]
    simp only []
    rw [ih (fun e he => h e (by simp [he]))]
    simp

theorem buildWeeks_ok_inv (l : List (String × Int)) :
    ∀ ws, buildWeeks l = .ok ws →
      (∀ e ∈ l, labelOK e.1) ∧ ws = l.map (fun e => labelWeek e.1 e.2) := by
  induction l with
  | nil => intro ws h; simp [buildWeeks] at h; simp [h]
  | cons e rest ih =>
    obtain ⟨wr, c⟩ := e
    intro ws h
    unfold buildWeeks at h
    split at h
    · exact absurd h (by simp)
    · rename_i w hw
      split at h
      · exact absurd h (by simp)
      · rename_i ws' hws'
        simp only [Except.ok.injEq] at h
        obtain ⟨hall, heq⟩ := ih ws' hws'
        obtain ⟨hok, hweq⟩ := parseWeek_ok_inv wr c w hw
        subst h
        constructor
        · intro e he
          rcases List.mem_cons.mp he with rfl | he
          · exact hok
          · exact hall e he
        · simp [hweq, heq]

theorem before_iff (a b : Date) :
    a.before b = true ↔
      a.year < b.year ∨ (a.year = b.year ∧
        (a.month < b.month ∨ (a.month = b.month ∧ a.day < b.day))) := by
  simp [Date.before]

instance : IsTotal week startLE where
  total := by
    intro a b
    simp only [startLE, Bool.eq_false_iff, ne_eq, before_iff]
    omega

instance : IsTrans week startLE where
  trans := by
    intro a b c
    simp only [startLE, Bool.eq_false_iff, ne_eq, before_iff]
    omega

theorem sortByStart_sorted (l : List week) : (sortByStart l).Sorted startLE :=
  List.sorted_insertionSort startLE l

theorem sortByStart_perm (l : List week) : (sortByStart l).Perm l :=
  List.perm_insertionSort startLE l

/-- What a successful `fetch` went through: status 200, a header record, rows
with the header's field count and integer ridership, labels that parse, and a
result that is the sorted image of the aggregation map in iteration order. -/
theorem fetch_ok_inv (iter : List (String × Int) → List (String × Int))
    (get : Except String Response) (out : List week) (h : fetch iter get = .ok out) :
    ∃ hdrr rows, get = .ok ⟨200, hdrr :: rows⟩ ∧
      (∀ r ∈ rows, r.length = hdrr.length ∧ (atoi (rowRidership hdrr r)).isSome) ∧
      (∀ e ∈ iter (aggregate hdrr rows []), labelOK e.1) ∧
      out = sortByStart ((iter (aggregate hdrr rows [])).map (fun e => labelWeek e.1 e.2)) := by
  unfold fetch at h
  split at h
  · exact absurd h (by simp)
  · rename_i resp
    split at h
    · exact absurd h (by simp)
    · rename_i hstatus
      simp only [ne_eq, Decidable.not_not] at hstatus
      split at h
      · exact absurd h (by simp)
      · rename_i hdrr rows hrec
        split at h
        · exact absurd h (by simp)
        · rename_i weeks hweeks
          split at h
          · exact absurd h (by simp)
          · rename_i ws hws
            simp only [Except.ok.injEq] at h
            have hrows := readRows_ok_inv hdrr rows [] weeks hweeks
            have hagg : weeks = aggregate hdrr rows [] := by
              have := readRows_ok hdrr rows hrows []
              rw [hweeks] at this
              exact Except.ok.inj this
            subst hagg
            obtain ⟨hall, hwseq⟩ := buildWeeks_ok_inv _ ws hws
            refine ⟨hdrr, rows, ?_, hrows, hall, ?_⟩
            · obtain ⟨st, recs⟩ := resp
              simp only at hstatus hrec
              subst hstatus
              subst hrec
              rfl
            · rw [← h, hwseq]

theorem fetch_ok (iter : List (String × Int) → List (String × Int))
    (hdrr : List String) (rows : List (List String))
    (hrows : ∀ r ∈ rows, r.length = hdrr.length ∧ (atoi (rowRidership hdrr r)).isSome)
    (hall : ∀ e ∈ iter (aggregate hdrr rows []), labelOK e.1) :
    fetch iter (.ok ⟨200, hdrr :: rows⟩) =
      .ok (sortByStart ((iter (aggregate hdrr rows [])).map (fun e => labelWeek e.1 e.2))) := by
  unfold fetch
  simp only [ne_eq, not_true_eq_false, if_false]
  rw [readRows_ok hdrr rows hrows []]
  simp only []
  rw [buildWeeks_ok _ hall]

/-- The result of a successful `fetch`, up to order: one week per distinct
label, with the wrapped sum of the label's ridership values. -/
theorem fetch_out_perm (iter : List (String × Int) → List (String × Int))
    (hiter : ∀ m, (iter m).Perm m) (hdrr : List String) (rows : List (List String))
    (out : List week) (h : fetch iter (.ok ⟨200, hdrr :: rows⟩) = .ok out) :
    (∀ r ∈ rows, labelOK (rowLabel hdrr r)) ∧
    out.Perm ((rows.map (rowLabel hdrr)).dedup.map
      (fun wr => labelWeek wr (wrapInt (labelSum hdrr rows wr)))) := by
  obtain ⟨hdrr', rows', hget, _, hall, hout⟩ := fetch_ok_inv iter _ out h
  simp only [Except.ok.injEq, Response.mk.injEq, List.cons.injEq, true_and] at hget
  obtain ⟨rfl, rfl⟩ := hget
  constructor
  · intro r hr
    have hk : rowLabel hdrr r ∈ (aggregate hdrr rows []).map Prod.fst := by
      rw [aggregate_keys]
      exact Or.inr (List.mem_map_of_mem _ hr)
    obtain ⟨e, he, hfst⟩ := List.mem_map.mp hk
    rw [← hfst]
    exact hall e ((hiter _).mem_iff.mpr he)
  · rw [hout]
    refine (sortByStart_perm _).trans ?_
    refine ((hiter _).map _).trans ?_
    refine ((aggregate_perm hdrr rows).map _).trans ?_
    rw [List.map_map]
    exact List.Perm.of_eq rfl

/-- C4 (as stated, refuted): two well-formed rows share one label, with the
ridership values 9223372036854775807 and 1. `fetch` returns a single week for
the label, but its count is -9223372036854775808, not the sum
9223372036854775808 of the two values: `weeks[wr] += c` wraps around. -/
theorem fetch_count_not_exact_sum :
    (∀ r ∈ [["2020.01.08 .. 2020.01.14", "9223372036854775807"],
        ["2020.01.08 .. 2020.01.14", "1"]],
      wellFormedRow ["Week_Range", "Ridership_Total"] r) ∧
    fetch id (.ok ⟨200, [["Week_Range", "Ridership_Total"],
        ["2020.01.08 .. 2020.01.14", "9223372036854775807"],
        ["2020.01.08 .. 2020.01.14", "1"]]⟩)
      = .ok [⟨⟨2020, 1, 8⟩, ⟨2020, 1, 14⟩, -9223372036854775808⟩] ∧
    labelSum ["Week_Range", "Ridership_Total"]
        [["2020.01.08 .. 2020.01.14", "9223372036854775807"],
          ["2020.01.08 .. 2020.01.14", "1"]] "2020.01.08 .. 2020.01.14"
      = 9223372036854775808 := by
  refine ⟨by decide, by decide, by decide⟩

/-- C4 (amended): for every sequence of well-formed data rows (the header's
field count, integer ridership, well-formed week-range label) behind a status
200 response, `fetch` succeeds, and its result holds exactly one week per
distinct week-range label of the rows (it is a permutation of the list with
one week per distinct label), that week's start and end being parsed from
tokens 0 and 2 of the label and its count being the sum of the ridership
values of all rows with that label wrapped around to the 64-bit `int`; the
count is the exact sum whenever that sum is within the range of `int`. -/
theorem fetch_aggregates (iter : List (String × Int) → List (String × Int))
    (hiter : ∀ m, (iter m).Perm m) (hdrr : List String) (rows : List (List String))
    (hwf : ∀ r ∈ rows, wellFormedRow hdrr r) :
    ∃ out, fetch iter (.ok ⟨200, hdrr :: rows⟩) = .ok out ∧
      out.Perm ((rows.map (rowLabel hdrr)).dedup.map
        (fun wr => labelWeek wr (wrapInt (labelSum hdrr rows wr)))) ∧
      (∀ r ∈ rows, inInt64 (labelSum hdrr rows (rowLabel hdrr r)) →
        labelWeek (rowLabel hdrr r) (labelSum hdrr rows (rowLabel hdrr r)) ∈ out) := by
  have hrows : ∀ r ∈ rows, r.length = hdrr.length ∧ (atoi (rowRidership hdrr r)).isSome :=
    fun r hr => ⟨(hwf r hr).1, (hwf r hr).2.1⟩
  have hall : ∀ e ∈ iter (aggregate hdrr rows []), labelOK e.1 := by
    intro e he
    have hmem : e.1 ∈ (aggregate hdrr rows []).map Prod.fst :=
      List.mem_map_of_mem _ ((hiter _).mem_iff.mp he)
    rw [aggregate_keys] at hmem
    simp only [List.map_nil, List.not_mem_nil, false_or, List.mem_map] at hmem
    obtain ⟨r, hr, hlab⟩ := hmem
    rw [← hlab]
    exact (hwf r hr).2.2
  have hfetch := fetch_ok iter hdrr rows hrows hall
  have hperm := (fetch_out_perm iter hiter hdrr rows _ hfetch).2
  refine ⟨_, hfetch, hperm, ?_⟩
  intro r hr hin
  rw [hperm.mem_iff, List.mem_map]
  refine ⟨rowLabel hdrr r, ?_, ?_⟩
  · rw [List.mem_dedup]
    exact List.mem_map_of_mem _ hr
  · rw [wrapInt_of_inInt64 _ hin]

/-- Witness of C4: two rows share a label (5 and 10 passengers), a third row
has a label of its own; the shared label yields one week with count 15. -/
theorem fetch_aggregates_witness :
    (∀ r ∈ [["2020.01.08 .. 2020.01.14", "5"], ["2020.01.01 .. 2020.01.07", "7"],
        ["2020.01.08 .. 2020.01.14", "10"]],
      wellFormedRow ["Week_Range", "Ridership_Total"] r) ∧
    ∃ out, fetch id (.ok ⟨200, [["Week_Range", "Ridership_Total"],
        ["2020.01.08 .. 2020.01.14", "5"], ["2020.01.01 .. 2020.01.07", "7"],
        ["2020.01.08 .. 2020.01.14", "10"]]⟩) = .ok out ∧
      out.Perm [⟨⟨2020, 1, 1⟩, ⟨2020, 1, 7⟩, 7⟩, ⟨⟨2020, 1, 8⟩, ⟨2020, 1, 14⟩, 15⟩] := by
  refine ⟨by decide, ?_⟩
  obtain ⟨out, hout, hperm, _⟩ := fetch_aggregates id (fun m => List.Perm.refl m)
    ["Week_Range", "Ridership_Total"]
    [["2020.01.08 .. 2020.01.14", "5"], ["2020.01.01 .. 2020.01.07", "7"],
      ["2020.01.08 .. 2020.01.14", "10"]] (by decide)
  refine ⟨out, hout, hperm.trans ?_⟩
  exact List.Perm.of_eq (by decide)

/-- C5: whenever `fetch` succeeds, the returned weeks are sorted ascending by
start date: for indices i < j, out[j] does not start before out[i]; in
particular the last element does not start before any other element. -/
theorem fetch_sorted (iter : List (String × Int) → List (String × Int))
    (get : Except String Response) (out : List week) (h : fetch iter get = .ok out) :
    (∀ (i j : Nat) (hi : i < out.length) (hj : j < out.length), i < j →
      out[j].start.before out[i].start = false) ∧
    (∀ last, out.getLast? = some last → ∀ w ∈ out, last.start.before w.start = false) := by
  obtain ⟨hdrr, rows, _, _, _, hout⟩ := fetch_ok_inv iter get out h
  have hsorted : out.Pairwise startLE := by
    rw [hout]; exact sortByStart_sorted _
  constructor
  · intro i j hi hj hij
    exact (List.pairwise_iff_getElem.mp hsorted) i j hi hj hij
  · intro last hlast w hw
    obtain ⟨ys, hys⟩ := List.getLast?_eq_some_iff.mp hlast
    rw [hys] at hsorted hw
    rcases List.mem_append.mp hw with hw | hw
    · exact (List.pairwise_append.mp hsorted).2.2 w hw last (by simp)
    · rw [List.mem_singleton] at hw
      subst hw
      simp [Date.before]

/-- Witness of C5: rows given out of order come back in order of start. -/
theorem fetch_sorted_witness :
    fetch id (.ok ⟨200, [["Week_Range", "Ridership_Total"],
        ["2020.01.08 .. 2020.01.14", "5"], ["2020.01.01 .. 2020.01.07", "7"],
        ["2019.12.25 .. 2019.12.31", "9"]]⟩)
      = .ok [⟨⟨2019, 12, 25⟩, ⟨2019, 12, 31⟩, 9⟩, ⟨⟨2020, 1, 1⟩, ⟨2020, 1, 7⟩, 7⟩,
          ⟨⟨2020, 1, 8⟩, ⟨2020, 1, 14⟩, 5⟩] ∧
    (∀ w ∈ [(⟨⟨2019, 12, 25⟩, ⟨2019, 12, 31⟩, 9⟩ : week), ⟨⟨2020, 1, 1⟩, ⟨2020, 1, 7⟩, 7⟩,
          ⟨⟨2020, 1, 8⟩, ⟨2020, 1, 14⟩, 5⟩],
      (⟨2020, 1, 8⟩ : Date).before w.start = false) :=
  ⟨by decide,
   (fetch_sorted id (.ok ⟨200, [["Week_Range", "Ridership_Total"],
        ["2020.01.08 .. 2020.01.14", "5"], ["2020.01.01 .. 2020.01.07", "7"],
        ["2019.12.25 .. 2019.12.31", "9"]]⟩) _ (by decide)).2
      ⟨⟨2020, 1, 8⟩, ⟨2020, 1, 14⟩, 5⟩ (by decide)⟩

/-- C7: if the ridership field of at least one data row is not a valid
integer, `fetch` returns an error and no weeks at all, whatever the rows
before and after that row are (and whatever the status and header are). -/
theorem fetch_invalid_ridership (iter : List (String × Int) → List (String × Int))
    (status : Nat) (hdrr : List String) (rows : List (List String))
    (hbad : ∃ r ∈ rows, atoi (rowRidership hdrr r) = none) :
    ∃ e, fetch iter (.ok ⟨status, hdrr :: rows⟩) = .error e := by
  unfold fetch
  dsimp only
  split
  · exact ⟨_, rfl⟩
  · obtain ⟨e, he⟩ := readRows_error hdrr.length (hdrIndex hdrr "Week_Range")
      (hdrIndex hdrr "Ridership_Total") rows hbad []
    rw [he]
    exact ⟨e, rfl⟩

/-- Witness of C7: a malformed ridership between two well-formed rows. -/
theorem fetch_invalid_ridership_witness :
    (∃ r ∈ [["2020.01.01 .. 2020.01.07", "7"], ["2020.01.08 .. 2020.01.14", "5x"],
        ["2020.01.15 .. 2020.01.21", "9"]],
      atoi (rowRidership ["Week_Range", "Ridership_Total"] r) = none) ∧
    (∃ e, fetch id (.ok ⟨200, [["Week_Range", "Ridership_Total"],
        ["2020.01.01 .. 2020.01.07", "7"], ["2020.01.08 .. 2020.01.14", "5x"],
        ["2020.01.15 .. 2020.01.21", "9"]]⟩) = .error e) :=
  ⟨by decide, fetch_invalid_ridership id 200 ["Week_Range", "Ridership_Total"]
      [["2020.01.01 .. 2020.01.07", "7"], ["2020.01.08 .. 2020.01.14", "5x"],
        ["2020.01.15 .. 2020.01.21", "9"]] (by decide)⟩

theorem hdrIndexAux_not_mem (hs : List String) (name : String) :
    ∀ (i acc : Nat), name ∉ hs → hdrIndexAux hs name i acc = acc := by
  induction hs with
  | nil => intro i acc _; rfl
  | cons h hs ih =>
    intro i acc hmem
    simp only [List.mem_cons, not_or] at hmem
    unfold hdrIndexAux
    rw [if_neg (fun e => hmem.1 e.symm)]
    exact ih _ _ hmem.2

theorem hdrIndex_head (h0 h1 : String) (rest : List String) (name : String) :
    hdrIndex (h0 :: rest) name = hdrIndex (h1 :: rest) name := by
  simp [hdrIndex, hdrIndexAux]

/-- C8 (as stated, refuted): the header has no column "Week_Range" (its first
column is called "WeekRange"), and `fetch` does not fail: it takes the
week-range labels from column 0. -/
theorem fetch_missing_column_succeeds :
    "Week_Range" ∉ ["WeekRange", "Ridership_Total"] ∧
    fetch id (.ok ⟨200, [["WeekRange", "Ridership_Total"],
        ["2020.01.08 .. 2020.01.14", "5"]]⟩)
      = .ok [⟨⟨2020, 1, 8⟩, ⟨2020, 1, 14⟩, 5⟩] := by
  refine ⟨by decide, by decide⟩

/-- C8 (amended): when the header record lacks a required column
("Week_Range" or "Ridership_Total"), `fetch` does not fail on that account:
the lookup in the header map gives index 0, so the values of that column are
read from column 0 of every record, and the result of `fetch` (weeks or
error) is the one it gives when the first column carries the missing name. -/
theorem fetch_missing_column (iter : List (String × Int) → List (String × Int))
    (status : Nat) (h0 : String) (rest : List String) (rows : List (List String))
    (name : String) (hmiss : name ∉ h0 :: rest) :
    hdrIndex (h0 :: rest) name = 0 ∧
    (∀ rec : List String, rec.getD (hdrIndex (h0 :: rest) name) "" = rec.getD 0 "") ∧
    fetch iter (.ok ⟨status, (h0 :: rest) :: rows⟩)
      = fetch iter (.ok ⟨status, (name :: rest) :: rows⟩) := by
  have h0idx : hdrIndex (h0 :: rest) name = 0 := hdrIndexAux_not_mem _ _ 0 0 hmiss
  refine ⟨h0idx, fun rec => by rw [h0idx], ?_⟩
  unfold fetch
  simp only [List.length_cons, hdrIndex_head h0 name rest]

/-- Witness of C8: the header lacks "Ridership_Total"; the counts are read
from column 0. -/
theorem fetch_missing_column_witness :
    "Ridership_Total" ∉ ["Total", "Week_Range"] ∧
    fetch id (.ok ⟨200, [["Total", "Week_Range"], ["5", "2020.01.08 .. 2020.01.14"]]⟩)
      = fetch id (.ok ⟨200, [["Ridership_Total", "Week_Range"],
          ["5", "2020.01.08 .. 2020.01.14"]]⟩) ∧
    fetch id (.ok ⟨200, [["Total", "Week_Range"], ["5", "2020.01.08 .. 2020.01.14"]]⟩)
      = .ok [⟨⟨2020, 1, 8⟩, ⟨2020, 1, 14⟩, 5⟩] :=
  ⟨by decide,
   (fetch_missing_column id 200 "Total" ["Week_Range"] [["5", "2020.01.08 .. 2020.01.14"]]
      "Ridership_Total" (by decide)).2.2,
   by decide⟩

/-- C9 (as stated, refuted): two labels that differ only in the middle token
parse to the same pair of dates, and `fetch` returns two distinct weeks with
the same start and the same end. -/
theorem fetch_duplicate_dates :
    fetch id (.ok ⟨200, [["Week_Range", "Ridership_Total"],
        ["2020.01.01 .. 2020.01.07", "7"], ["2020.01.01 to 2020.01.07", "3"]]⟩)
      = .ok [⟨⟨2020, 1, 1⟩, ⟨2020, 1, 7⟩, 7⟩, ⟨⟨2020, 1, 1⟩, ⟨2020, 1, 7⟩, 3⟩] := by
  decide

/-- C9 (amended): whenever `fetch` succeeds, the returned collection has
exactly one week per distinct week-range label string of the rows; it is
unique by (start, end) provided that distinct label strings of the rows
parse to distinct pairs of dates. -/
theorem fetch_unique_per_label (iter : List (String × Int) → List (String × Int))
    (hiter : ∀ m, (iter m).Perm m) (hdrr : List String) (rows : List (List String))
    (out : List week) (h : fetch iter (.ok ⟨200, hdrr :: rows⟩) = .ok out) :
    out.length = (rows.map (rowLabel hdrr)).dedup.length ∧
    out.Perm ((rows.map (rowLabel hdrr)).dedup.map
      (fun wr => labelWeek wr (wrapInt (labelSum hdrr rows wr)))) ∧
    ((∀ r₁ ∈ rows, ∀ r₂ ∈ rows,
        labelDates (rowLabel hdrr r₁) = labelDates (rowLabel hdrr r₂) →
          rowLabel hdrr r₁ = rowLabel hdrr r₂) →
      (out.map (fun w => (w.start, w.end_))).Nodup) := by
  obtain ⟨hok, hperm⟩ := fetch_out_perm iter hiter hdrr rows out h
  refine ⟨?_, hperm, ?_⟩
  · rw [hperm.length_eq, List.length_map]
  · intro hinj
    rw [(hperm.map _).nodup_iff, List.map_map]
    refine List.Nodup.map_on ?_ (List.nodup_dedup _)
    intro x hx y hy hxy
    rw [List.mem_dedup, List.mem_map] at hx hy
    obtain ⟨r₁, hr₁, rfl⟩ := hx
    obtain ⟨r₂, hr₂, rfl⟩ := hy
    apply hinj r₁ hr₁ r₂ hr₂
    obtain ⟨_, hs₁, he₁⟩ := hok r₁ hr₁
    obtain ⟨_, hs₂, he₂⟩ := hok r₂ hr₂
    obtain ⟨a₁, ha₁⟩ := Option.isSome_iff_exists.mp hs₁
    obtain ⟨b₁, hb₁⟩ := Option.isSome_iff_exists.mp he₁
    obtain ⟨a₂, ha₂⟩ := Option.isSome_iff_exists.mp hs₂
    obtain ⟨b₂, hb₂⟩ := Option.isSome_iff_exists.mp he₂
    simp only [Function.comp, labelWeek, ha₁, hb₁, ha₂, hb₂, Option.getD_some,
      Prod.mk.injEq] at hxy
    rw [Prod.ext_iff]
    rw [ha₁, hb₁, ha₂, hb₂, hxy.1, hxy.2]
    exact ⟨rfl, rfl⟩

/-- Witness of C9: three rows, two distinct labels with distinct dates. -/
theorem fetch_unique_per_label_witness :
    fetch id (.ok ⟨200, [["Week_Range", "Ridership_Total"],
        ["2020.01.08 .. 2020.01.14", "5"], ["2020.01.01 .. 2020.01.07", "7"],
        ["2020.01.08 .. 2020.01.14", "10"]]⟩)
      = .ok [⟨⟨2020, 1, 1⟩, ⟨2020, 1, 7⟩, 7⟩, ⟨⟨2020, 1, 8⟩, ⟨2020, 1, 14⟩, 15⟩] ∧
    ([(⟨⟨2020, 1, 1⟩, ⟨2020, 1, 7⟩, 7⟩ : week), ⟨⟨2020, 1, 8⟩, ⟨2020, 1, 14⟩, 15⟩].map
      (fun w => (w.start, w.end_))).Nodup :=
  ⟨by decide,
   (fetch_unique_per_label id (fun m => List.Perm.refl m)
      ["Week_Range", "Ridership_Total"]
      [["2020.01.08 .. 2020.01.14", "5"], ["2020.01.01 .. 2020.01.07", "7"],
        ["2020.01.08 .. 2020.01.14", "10"]]
      [⟨⟨2020, 1, 1⟩, ⟨2020, 1, 7⟩, 7⟩, ⟨⟨2020, 1, 8⟩, ⟨2020, 1, 14⟩, 15⟩]
      (by decide)).2.2 (by decide)⟩

/-! ## The done marker -/

theorem decimal_one_digit (n : Nat) (h : n < 10) : decimal n = [Nat.digitChar n] := by
  unfold decimal Nat.toDigits
  simp only [Nat.toDigitsCore]
  rw [if_pos (by omega), Nat.mod_eq_of_lt h]

theorem decimal_two_digits (n : Nat) (h1 : 10 ≤ n) (h2 : n < 100) :
    decimal n = [Nat.digitChar (n / 10), Nat.digitChar (n % 10)] := by
  obtain ⟨k, rfl⟩ : ∃ k, n = k + 1 := ⟨n - 1, by omega⟩
  unfold decimal Nat.toDigits
  simp only [Nat.toDigitsCore]
  rw [if_neg (by omega), if_pos (by omega)]
  have e : (k + 1) / 10 % 10 = (k + 1) / 10 := by omega
  rw [e]

theorem decimal_three_digits (n : Nat) (h1 : 100 ≤ n) (h2 : n < 1000) :
    decimal n =
      [Nat.digitChar (n / 100), Nat.digitChar (n / 10 % 10), Nat.digitChar (n % 10)] := by
  obtain ⟨k, rfl⟩ : ∃ k, n = k + 2 := ⟨n - 2, by omega⟩
  unfold decimal Nat.toDigits
  simp only [Nat.toDigitsCore]
  rw [if_neg (by omega), if_neg (by omega), if_pos (by omega)]
  have e : (k + 2) / 10 / 10 % 10 = (k + 2) / 100 := by omega
  rw [e]

theorem decimal_four_digits (n : Nat) (h1 : 1000 ≤ n) (h2 : n < 10000) :
    decimal n = [Nat.digitChar (n / 1000), Nat.digitChar (n / 100 % 10),
      Nat.digitChar (n / 10 % 10), Nat.digitChar (n % 10)] := by
  obtain ⟨k, rfl⟩ : ∃ k, n = k + 3 := ⟨n - 3, by omega⟩
  unfold decimal Nat.toDigits
  simp only [Nat.toDigitsCore]
  rw [if_neg (by omega), if_neg (by omega), if_neg (by omega), if_pos (by omega)]
  have e : (k + 3) / 10 / 10 / 10 % 10 = (k + 3) / 1000 := by omega
  have e2 : (k + 3) / 10 / 10 % 10 = (k + 3) / 100 % 10 := by omega
  rw [e, e2]

theorem digitChar_toNat (k : Nat) (h : k < 10) : (Nat.digitChar k).toNat = 48 + k := by
  interval_cases k <;> rfl

theorem digitChar_inj (a b : Nat) (ha : a < 10) (hb : b < 10)
    (h : Nat.digitChar a = Nat.digitChar b) : a = b := by
  have := congrArg Char.toNat h
  rw [digitChar_toNat a ha, digitChar_toNat b hb] at this
  omega

/-- A year from 0 to 9999 prints as its four decimal digits. -/
theorem appendInt_four (n : Nat) (h : n < 10000) :
    appendInt (n : Int) 4 = String.mk [Nat.digitChar (n / 1000), Nat.digitChar (n / 100 % 10),
      Nat.digitChar (n / 10 % 10), Nat.digitChar (n % 10)] := by
  have hneg : ¬ ((n : Int) < 0) := by omega
  unfold appendInt
  simp only [Int.natAbs_ofNat, hneg, if_false]
  congr 1
  have h0 : Nat.digitChar 0 = '0' := rfl
  by_cases c1 : n < 10
  · rw [decimal_one_digit n c1]
    have e1 : n / 1000 = 0 := by omega
    have e2 : n / 100 % 10 = 0 := by omega
    have e3 : n / 10 % 10 = 0 := by omega
    have e4 : n % 10 = n := by omega
    rw [e1, e2, e3, e4, h0]
    rfl
  · by_cases c2 : n < 100
    · rw [decimal_two_digits n (by omega) c2]
      have e1 : n / 1000 = 0 := by omega
      have e2 : n / 100 % 10 = 0 := by omega
      have e3 : n / 10 % 10 = n / 10 := by omega
      rw [e1, e2, e3, h0]
      rfl
    · by_cases c3 : n < 1000
      · rw [decimal_three_digits n (by omega) c3]
        have e1 : n / 1000 = 0 := by omega
        have e2 : n / 100 % 10 = n / 100 := by omega
        rw [e1, e2, h0]
        rfl
      · rw [decimal_four_digits n (by omega) h]
        rfl

/-- A month or day below 100 prints as its two decimal digits. -/
theorem appendInt_two (n : Nat) (h : n < 100) :
    appendInt (n : Int) 2 = String.mk [Nat.digitChar (n / 10), Nat.digitChar (n % 10)] := by
  have hneg : ¬ ((n : Int) < 0) := by omega
  unfold appendInt
  simp only [Int.natAbs_ofNat, hneg, if_false]
  congr 1
  have h0 : Nat.digitChar 0 = '0' := rfl
  by_cases c1 : n < 10
  · rw [decimal_one_digit n c1]
    have e1 : n / 10 = 0 := by omega
    have e4 : n % 10 = n := by omega
    rw [e1, e4, h0]
    rfl
  · rw [decimal_two_digits n (by omega) h]
    rfl

/-- `Format("2006-01-02")` on a date that fits the pattern is the text
YYYY-MM-DD, digit by digit. -/
theorem formatDate_eq_isoText (d : Date) (h : fitsISO d) :
    formatDate d = isoText d.year.toNat d.month d.day := by
  obtain ⟨hy0, hy1, hm, hd⟩ := h
  obtain ⟨y, hy⟩ := Int.eq_ofNat_of_zero_le hy0
  have hylt : y < 10000 := by omega
  unfold formatDate
  rw [hy, appendInt_four y hylt, appendInt_two d.month hm, appendInt_two d.day hd]
  simp only [Int.toNat_ofNat, isoText]
  rfl

/-- The text YYYY-MM-DD determines the year, the month and the day. -/
theorem isoText_inj (y m d y' m' d' : Nat) (hy : y < 10000) (hm : m < 100) (hd : d < 100)
    (hy' : y' < 10000) (hm' : m' < 100) (hd' : d' < 100)
    (h : isoText y m d = isoText y' m' d') : y = y' ∧ m = m' ∧ d = d' := by
  unfold isoText at h
  have hdata := congrArg String.data h
  simp only [List.cons.injEq, and_true, true_and] at hdata
  obtain ⟨h1, h2, h3, h4, h5, h6, h7, h8⟩ := hdata
  have a1 := digitChar_inj _ _ (by omega) (by omega) h1
  have a2 := digitChar_inj _ _ (by omega) (by omega) h2
  have a3 := digitChar_inj _ _ (by omega) (by omega) h3
  have a4 := digitChar_inj _ _ (by omega) (by omega) h4
  have a5 := digitChar_inj _ _ (by omega) (by omega) h5
  have a6 := digitChar_inj _ _ (by omega) (by omega) h6
  have a7 := digitChar_inj _ _ (by omega) (by omega) h7
  have a8 := digitChar_inj _ _ (by omega) (by omega) h8
  refine ⟨by omega, by omega, by omega⟩

theorem formatDate_inj (a b : Date) (ha : fitsISO a) (hb : fitsISO b)
    (h : formatDate a = formatDate b) : a = b := by
  rw [formatDate_eq_isoText a ha, formatDate_eq_isoText b hb] at h
  obtain ⟨ha0, ha1, ham, had⟩ := ha
  obtain ⟨hb0, hb1, hbm, hbd⟩ := hb
  obtain ⟨e1, e2, e3⟩ := isoText_inj _ _ _ _ _ _ (by omega) ham had (by omega) hbm hbd h
  obtain ⟨ay, am, ad⟩ := a
  obtain ⟨by_, bm, bd⟩ := b
  simp only at ha0 hb0 e1 e2 e3
  have : ay = by_ := by omega
  subst this e2 e3
  rfl

/-- C6: with the marker file as an optional string, `isAlreadyDone` returns
false without error when there is no marker file; when the file holds the
string `s` it returns, without error, true if and only if `s` is the end date
of the week as `Format("2006-01-02")` prints it, which for every date that
fits the pattern (year 0 to 9999) is the text YYYY-MM-DD: four digits of the
year, two of the month, two of the day, zero-padded, with hyphens; `markDone`,
when the write succeeds, leaves the file holding that text whatever it held
before, so that afterwards `isAlreadyDone` is true exactly for the weeks whose
end date has the same YYYY-MM-DD text, that is, the same calendar date. -/
theorem isAlreadyDone_markDone (w w' : week) (s : String) (file : Marker) :
    isAlreadyDone .absent w = .ok false ∧
    isAlreadyDone (.stored s) w = .ok (decide (s = formatDate w.end_)) ∧
    (isAlreadyDone (.stored s) w = .ok true ↔ s = formatDate w.end_) ∧
    markDone none file w = .ok (.stored (formatDate w.end_)) ∧
    (∀ file', markDone none file w = .ok file' →
      (isAlreadyDone file' w' = .ok true ↔ formatDate w'.end_ = formatDate w.end_)) ∧
    (fitsISO w.end_ →
      formatDate w.end_ = isoText w.end_.year.toNat w.end_.month w.end_.day ∧
      (isAlreadyDone (.stored s) w = .ok true ↔
        s = isoText w.end_.year.toNat w.end_.month w.end_.day) ∧
      markDone none file w
        = .ok (.stored (isoText w.end_.year.toNat w.end_.month w.end_.day)) ∧
      (fitsISO w'.end_ → ∀ file', markDone none file w = .ok file' →
        (isAlreadyDone file' w' = .ok true ↔ w'.end_ = w.end_))) := by
  have hmark : markDone none file w = .ok (.stored (formatDate w.end_)) := by
    cases file <;> rfl
  have hiff : isAlreadyDone (.stored s) w = .ok true ↔ s = formatDate w.end_ := by
    simp [isAlreadyDone]
  have hafter : ∀ file', markDone none file w = .ok file' →
      (isAlreadyDone file' w' = .ok true ↔ formatDate w'.end_ = formatDate w.end_) := by
    intro file' h
    rw [hmark] at h
    have hfile : file' = .stored (formatDate w.end_) := (Except.ok.inj h).symm
    subst hfile
    simp [isAlreadyDone, eq_comm]
  refine ⟨rfl, rfl, hiff, hmark, hafter, ?_⟩
  intro hfit
  have hfmt := formatDate_eq_isoText w.end_ hfit
  refine ⟨hfmt, ?_, ?_, ?_⟩
  · rw [hiff, hfmt]
  · rw [hmark, hfmt]
  · intro hfit' file' h
    rw [hafter file' h]
    constructor
    · exact formatDate_inj _ _ hfit' hfit
    · intro e; rw [e]

/-- Witness of C6: the week ending 2020-01-14. The marker `2020-01-14` counts
as done, the unpadded `2020-1-14` and the dotted `2020.01.14` do not;
`markDone` writes `2020-01-14`; after it the week ending the next day is not
done. -/
theorem isAlreadyDone_markDone_witness :
    isAlreadyDone (.stored "2020-01-14") ⟨⟨2020, 1, 8⟩, ⟨2020, 1, 14⟩, 4500⟩ = .ok true ∧
    isAlreadyDone (.stored "2020-1-14") ⟨⟨2020, 1, 8⟩, ⟨2020, 1, 14⟩, 4500⟩ = .ok false ∧
    isAlreadyDone (.stored "2020.01.14") ⟨⟨2020, 1, 8⟩, ⟨2020, 1, 14⟩, 4500⟩ = .ok false ∧
    markDone none (.stored "2020-01-07") ⟨⟨2020, 1, 8⟩, ⟨2020, 1, 14⟩, 4500⟩
      = .ok (.stored "2020-01-14") ∧
    isAlreadyDone (.stored "2020-01-14") ⟨⟨2020, 1, 9⟩, ⟨2020, 1, 15⟩, 4600⟩ = .ok false ∧
    formatDate ⟨2020, 1, 14⟩ = "2020-01-14" ∧ formatDate ⟨987, 12, 5⟩ = "0987-12-05" := by
  have h := (isAlreadyDone_markDone ⟨⟨2020, 1, 8⟩, ⟨2020, 1, 14⟩, 4500⟩
    ⟨⟨2020, 1, 9⟩, ⟨2020, 1, 15⟩, 4600⟩ "2020-01-14" (.stored "2020-01-07")).2.2.2.2.2
    (by decide)
  refine ⟨h.2.1.mpr (by decide), by decide, by decide, ?_, by decide, ?_, by decide⟩
  · rw [h.2.2.1]
    decide
  · rw [h.1]
    decide

/-! ## Publishing -/

/-- What `uploadMedia` does with a non-empty alt text: after the upload request
is answered with a 2xx status and a media id, it issues the second request,
the JSON POST that attaches the alt text to that id. -/
theorem uploadMedia_attaches_alt_text (cl : Client) (m : List Nat) (altText : String)
    (status : Nat) (mediaID : Int) (hne : altText ≠ "")
    (hresp : cl ⟨"POST", uploadURL, .multipartForm, .media m⟩ = .ok ⟨status, .ok mediaID⟩)
    (h2xx : status / 100 = 2) :
    (uploadMedia cl m altText).1 =
      [⟨"POST", uploadURL, .multipartForm, .media m⟩,
       ⟨"POST", metadataURL, .jsonUtf8, .metadata (toString mediaID) altText⟩] := by
  unfold uploadMedia
  simp only [hresp, h2xx, ne_eq, not_true_eq_false, if_false, hne]
  split
  · rfl
  · split <;> rfl

/-- No run of `publish` issues a request other than the media upload: the
alt text argument of `uploadMedia` is the empty string. -/
theorem publish_requests (w : World) (cfg : Config) (lastWeek : week) (gb : List Nat)
    (stxt : String) (r : Request)
    (hr : Event.request r ∈ (publish w cfg lastWeek gb stxt).1) :
    r = ⟨"POST", uploadURL, .multipartForm, .media gb⟩ := by
  have hreqs : (uploadMedia w.cl gb "").1 = [⟨"POST", uploadURL, .multipartForm, .media gb⟩] := by
    unfold uploadMedia
    dsimp only
    split
    · rfl
    · split
      · rfl
      · split
        · rfl
        · simp
  unfold publish at hr
  split at hr
  · split at hr <;> simp at hr
  · split at hr
    · rename_i reqs e heq
      have : reqs = [⟨"POST", uploadURL, .multipartForm, .media gb⟩] := by
        rw [← hreqs, heq]
      subst this
      simpa using hr
    · rename_i reqs mid heq
      have : reqs = [⟨"POST", uploadURL, .multipartForm, .media gb⟩] := by
        rw [← hreqs, heq]
      subst this
      split at hr
      · simpa using hr
      · split at hr <;> simpa using hr

/-- C10 (the code at the failing input): a normal-mode run with two weeks of
data reaches the publishing step; the alt text `altText` produces for the
window is logged, but the only HTTP request of the run is the media upload:
no request to the metadata endpoint is issued before the status is created. -/
theorem main_publishes_without_alt_text :
    main sampleWorld =
      ([.logTweet "Week ending Tue Jan 14 had 4,500 passengers" 43
          "Bar chart of passengers by week for last 2 weeks. The most recent count of 4,500 is 10% fewer than the previous week.",
        .request ⟨"POST", uploadURL, .multipartForm, .media [137, 80, 78, 71]⟩,
        .statusUpdate "Week ending Tue Jan 14 had 4,500 passengers" [42],
        .printed "https://twitter.com/transithfx/status/99",
        .markerWritten "2020-01-14"], .returned) := by
  set_option maxRecDepth 20000 in decide

end Transithfx
